import Mathlib

/-!
# Verification of the honeycomb word-search program

Shallow embedding of `src/honeycomb_trie.c` (a hexagonal "honeycomb"
word-search solver: a 26-ary trie built from a dictionary, a layered-string
honeycomb grid, and a depth-first search walking both in lockstep).

Modelling conventions:
* C strings / buffers become `List Char`; `strlen` is list length (the
  buffers involved never contain an interior NUL on the defined-behavior
  paths; where the C code would read past `strlen` or index with an
  out-of-range subscript the behavior is undefined in C, and the model
  gives those reads the harmless total meaning noted at each definition).
* The trie's 26-entry child array `trie_node *next[ALPHABET_SIZE]` becomes
  a total function `Int → Option Trie`; in-range indices (0..25) behave
  exactly as the C array, and an out-of-range index (undefined behavior in
  C: `CHAR_TO_INDEX` is applied unchecked) is modelled as a defined slot
  that starts out empty.
* The general recursion of `find_words_trie` is embedded with an explicit
  fuel parameter; `find_words` supplies fuel larger than the recursion
  depth the C program can reach (one cell is marked visited per level, so
  the depth is bounded by the cell count).  All the theorems below about
  the search are proved for every fuel value, so no fuel-adequacy
  assumption is needed.
-/

/-! ## Trie (`trie_node`, `CHAR_TO_INDEX`, `get_trienode`, `insert_trie`) -/

/-- `#define CHAR_TO_INDEX(c) ((int)c - (int)'A')` -/
def CHAR_TO_INDEX (c : Char) : Int := (c.toNat : Int) - 65

/-- `struct trie_node { struct trie_node *next[ALPHABET_SIZE]; bool is_end; }`.
The child array is modelled as a total function from `Int` (the type of
`CHAR_TO_INDEX`'s result) to optional children; see the header comment. -/
inductive Trie where
  | node (is_end : Bool) (next : Int → Option Trie)

/-- Field accessor for `is_end`. -/
def Trie.is_end : Trie → Bool
  | .node e _ => e

/-- Field accessor for the child array `next`. -/
def Trie.next : Trie → Int → Option Trie
  | .node _ ch => ch

/-- Pointwise update of a child array (`parent->next[index] = ...`). -/
def updNext (f : Int → Option Trie) (i : Int) (v : Option Trie) :
    Int → Option Trie :=
  fun j => if j = i then v else f j

/-- `get_trienode`: fresh node, `is_end = false`, all children `NULL`. -/
def get_trienode : Trie := Trie.node false (fun _ => none)

/-- `insert_trie(root, key)`: walk `key`, creating missing nodes, and mark
the final node `is_end = true`.  The C loop is tail-recursive over the key;
the functional version rebuilds the spine, which is equivalent because the
trie is a proper tree (every node has a unique parent). -/
def insert_trie (root : Trie) (key : List Char) : Trie :=
  match root, key with
  | Trie.node _ ch, [] => Trie.node true ch
  | Trie.node e ch, c :: rest =>
    let index := CHAR_TO_INDEX c
    let child := (ch index).getD get_trienode
    Trie.node e (updNext ch index (some (insert_trie child rest)))

/-- Implicit trie lookup (spec §4.1: "callers descend the tree directly,
node by node"): walk the node's children along the word and report the
final node's `is_end`; falling off the trie reports `false`. -/
def trie_accepts (t : Trie) (w : List Char) : Bool :=
  match t, w with
  | t, [] => t.is_end
  | t, c :: rest =>
    match t.next (CHAR_TO_INDEX c) with
    | none => false
    | some child => trie_accepts child rest

/-- `fill_trie`'s dictionary loop body result: `build_from_dictionary` as a
fold of `insert_trie` over the word list. -/
def build_from_dictionary (ws : List (List Char)) : Trie :=
  ws.foldl (fun t w => insert_trie t w) get_trienode

/-! ## `fill_trie`: reading the dictionary file -/

/-- `fgets(word, n+1, fp)` on a stream: read characters up to the first
newline (kept) or until `n` characters are read or the stream ends;
returns the line and the remaining stream. -/
def fgetsLine : Nat → List Char → List Char × List Char
  | 0, s => ([], s)
  | _ + 1, [] => ([], [])
  | n + 1, c :: rest =>
    if c = '\n' then ([c], rest)
    else
      let (l, r) := fgetsLine n rest
      (c :: l, r)

/-- `word[strlen(word) - 1] = '\0'`: truncate at the first NUL (that is
what `strlen` measures) and remove the final character. -/
def c_strip (line : List Char) : List Char :=
  (line.takeWhile (fun ch => ch ≠ Char.ofNat 0)).dropLast

/-- `fill_trie(root, fp)`: `while (fgets(word, 1024, fp) != NULL)`
(`WORD_SIZE = 1024`, so at most 1023 characters per read), strip the last
character, insert.  `fgets` returns `NULL` exactly when the stream is
empty. -/
def fill_trie (root : Trie) (s : List Char) : Trie :=
  if h : s = [] then root
  else
    let p := fgetsLine 1023 s
    fill_trie (insert_trie root (c_strip p.1)) p.2
termination_by s.length
decreasing_by
  cases s with
  | nil => exact absurd rfl h
  | cons c rest =>
    clear h
    have hle : ∀ (n : Nat) (l : List Char), (fgetsLine n l).2.length ≤ l.length := by
      intro n
      induction n with
      | zero => intro l; exact Nat.le_refl _
      | succ m ih =>
        intro l
        cases l with
        | nil => exact Nat.zero_le _
        | cons a r =>
          by_cases ha : a = '\n'
          · simp [fgetsLine, ha]
          · simp only [fgetsLine, ha, if_false]
            exact Nat.le_trans (ih r) (Nat.le_succ _)
    show (fgetsLine 1023 (c :: rest)).2.length < (c :: rest).length
    by_cases hc : c = '\n'
    · simp [fgetsLine, hc]
    · simp only [fgetsLine, hc, if_false]
      exact Nat.lt_succ_of_le (hle 1022 rest)

/-! ## Honeycomb construction (`create_honeycomb`, `hcomb_store`,
`fill_honeycomb`)

The honeycomb `struct honeycomb { int number_columns; char **columns; }`
is modelled with `columns : List (Option (List Char))`: `calloc` fills the
pointer array with `NULL` (`none`), and each `hc->columns[i] = ...`
assignment stores `some` column.  A column string of length `n`
(`malloc(n + 1)` with `'\0'` at index `n`) is a `List Char` of length `n`
whose cells start out as the placeholder `'?'` (uninitialized memory; on
well-formed input every cell is overwritten before use). -/

/-- `struct honeycomb`. -/
structure honeycomb where
  number_columns : Nat
  columns : List (Option (List Char))

/-- `strncpy(dst + off, src, k)` where the source segment `src.take k`
contains no NUL (true for the honeycomb layer strings, whose characters
are the input symbols): write the characters of `src.take k` into `dst` at
positions `off, off+1, ...`. -/
def writeAt (dst : List Char) (off : Nat) : List Char → List Char
  | [] => dst
  | c :: rest => writeAt (dst.set off c) (off + 1) rest

/-- Inner loop of `hcomb_store` (`for (j = num_layers - 1; j > i; j--)`):
the iteration argument is the current value of `j`; each step for `j > i`
writes `column[n-j-1] = layers[j][i]` and `column[n-i+j] = layers[j][3j+1-i]`
(the pointer arithmetic `layers[j] - i + 3*j + 1` reads index `3j+1-i`). -/
def hcombInner (layers : List (List Char)) (n i : Nat) :
    List Char → Nat → List Char
  | col, 0 => col
  | col, j + 1 =>
    if i < j + 1 then
      let lj := layers.getD (j + 1) []
      let col := col.set (n - (j + 1) - 1) (lj.getD i '?')
      let col := col.set (n - i + (j + 1)) (lj.getD (3 * (j + 1) + 1 - i) '?')
      hcombInner layers n i col j
    else col

/-- Body of `hcomb_store`'s outer loop for one value of `i`: allocate the
column of length `2*num_layers - i`, copy the contiguous segment
`layers[i][i .. i+i+1]` to offset `num_layers - i - 1`, then run the inner
loop from `j = num_layers - 1`. -/
def hcomb_store_col (layers : List (List Char)) (n i : Nat) : List Char :=
  let column := List.replicate (2 * n - i) '?'
  let column := writeAt column (n - i - 1) (((layers.getD i []).drop i).take (i + 2))
  hcombInner layers n i column (n - 1)

/-- Outer loop of `hcomb_store` (`for (i = num_layers - 1; i >= 0; i--)`):
the iteration argument `i + 1` handles loop index `i`; the finished column
is stored at `columns[n + i + 1]` (right half) or `columns[n - i - 1]`
(left half). -/
def hcombStoreLoop (layers : List (List Char)) (n : Nat) (right : Bool) :
    List (Option (List Char)) → Nat → List (Option (List Char))
  | cols, 0 => cols
  | cols, i + 1 =>
    let column := hcomb_store_col layers n i
    let cols := cols.set (if right then n + i + 1 else n - i - 1) (some column)
    hcombStoreLoop layers n right cols i

/-- `hcomb_store(hc, layers, num_layers, right)`. -/
def hcomb_store (cols : List (Option (List Char))) (layers : List (List Char))
    (n : Nat) (right : Bool) : List (Option (List Char)) :=
  hcombStoreLoop layers n right cols n

/-- Right half-ring read loop (`for (j = halflayerlen - 1; j >= 0; j--)
fscanf(fp, " %c", &right[j])`): the iteration argument is `j + 1` for the
write to index `j`, so the stream symbols land in the buffer in reverse
order. -/
def readRev : Nat → List Char → List Char → List Char × List Char
  | 0, buf, s => (buf, s)
  | j + 1, buf, s => readRev j (buf.set j (s.headD '?')) s.tail

/-- Left half-ring read loop (`for (k = 0; k < halflayerlen; k++)
fscanf(fp, " %c", left + k)`): first argument counts remaining reads,
second is the write index `k`; symbols land in the order read. -/
def readFwd : Nat → Nat → List Char → List Char → List Char × List Char
  | 0, _, buf, s => (buf, s)
  | rem + 1, k, buf, s => readFwd rem (k + 1) (buf.set k (s.headD '?')) s.tail

/-- One iteration of `fill_honeycomb`'s ring loop, as far as the input
stream is concerned: for ring `i` read the upper-center symbol, the right
half-ring (stored reversed), the lower-center symbol and the left
half-ring (stored in order), with `halflayerlen = 2 + (i-1)*3`.  Returns
`(upper, right, lower, left, remaining stream)`. -/
def readRing (i : Nat) (s : List Char) :
    Char × List Char × Char × List Char × List Char :=
  let h := 2 + (i - 1) * 3
  let upper := s.headD '?'
  let s1 := s.tail
  let pr := readRev h (List.replicate h '?') s1
  let lower := pr.2.headD '?'
  let s3 := pr.2.tail
  let pl := readFwd h 0 (List.replicate h '?') s3
  (upper, pr.1, lower, pl.1, pl.2)

/-- The ring loop of `fill_honeycomb` (`for (i = 1; i < layers; i++)`):
the first argument counts remaining iterations (`layers - i`), the second
is the current ring index `i`.  Each ring writes its upper-center symbol to
`center[layers - 1 + i]` and its lower-center symbol to
`center[layers - 1 - i]`, and appends its half-ring strings to
`leftlayers` / `rightlayers` (C stores them at index `i - 1`, i.e. in ring
order). -/
def fillRings (layersN : Nat) :
    Nat → Nat → List Char → List Char → List (List Char) → List (List Char) →
    List Char × List (List Char) × List (List Char) × List Char
  | 0, _, center, s, lefts, rights => (center, lefts, rights, s)
  | rem + 1, i, center, s, lefts, rights =>
    let r := readRing i s
    let center := (center.set (layersN - 1 + i) r.1).set (layersN - 1 - i) r.2.2.1
    fillRings layersN rem (i + 1) center r.2.2.2.2 (lefts ++ [r.2.2.2.1])
      (rights ++ [r.2.1])

/-- `fill_honeycomb(hc, fp, layers)`: read the center symbol into
`center[layers - 1]` (the center buffer has `2*layers - 1` character
cells), then, when `layers > 1`, run the ring loop and the two
`hcomb_store` calls (left half first, then right), and finally store the
center column at index `layers - 1`. -/
def fill_honeycomb (hc : honeycomb) (s : List Char) (layers : Nat) : honeycomb :=
  let center0 := (List.replicate (2 * layers - 1) '?').set (layers - 1) (s.headD '?')
  let s1 := s.tail
  if 1 < layers then
    let r := fillRings layers (layers - 1) 1 center0 s1 [] []
    let cols1 := hcomb_store hc.columns r.2.1 (layers - 1) false
    let cols2 := hcomb_store cols1 r.2.2.1 (layers - 1) true
    { hc with columns := cols2.set (layers - 1) (some r.1) }
  else
    { hc with columns := hc.columns.set (layers - 1) (some center0) }

/-- `create_honeycomb(layers)`: `number_columns = 2*layers - 1`, and the
column pointer array is `calloc`ed to all-`NULL`. -/
def create_honeycomb (layers : Nat) : honeycomb :=
  { number_columns := 2 * layers - 1
    columns := List.replicate (2 * layers - 1) none }

/-! ## Search engine (`find_words_trie`, `find_words`)

During the search all columns are non-`NULL`, so the grid is just
`List (List Char)`; the struct invariant `hc->number_columns =` length of
the column array lets `hc->number_columns` be read off as `g.length`.
Coordinates are `Int` because `find_words_trie` takes `int column, int
label` and is called with values going to `-1`.  Reads/writes at
coordinates rejected by the bounds check never happen on defined-behavior
paths; the model makes them total (`'?'` / no-op). -/

abbrev Grid := List (List Char)

/-- `hc->columns[column][label]` (total model; see header). -/
def gridGet (g : Grid) (c l : Int) : Char :=
  if 0 ≤ c ∧ 0 ≤ l then (g.getD c.toNat []).getD l.toNat '?' else '?'

/-- `hc->columns[column][label] = ch` (total model; see header). -/
def gridSet (g : Grid) (c l : Int) (ch : Char) : Grid :=
  if 0 ≤ c ∧ 0 ≤ l then g.set c.toNat ((g.getD c.toNat []).set l.toNat ch) else g

/-- The pruning condition of `find_words_trie`, line for line:
`column < 0 || label < 0 || column >= hc->number_columns ||
label >= strlen(hc->columns[column]) || hc->columns[column][label] == '-'`. -/
def invalidPos (g : Grid) (c l : Int) : Bool :=
  decide (c < 0) || decide (l < 0) || decide ((g.length : Int) ≤ c) ||
    decide (((g.getD c.toNat []).length : Int) ≤ l) || decide (gridGet g c l = '-')

/-- The neighbor offsets enumerated by the nested
`for (i = -1; i <= 1; i++) for (j = -1; j <= 1; j++)` loops, in loop
order. -/
def neighborOffsets : List (Int × Int) :=
  [(-1, -1), (-1, 0), (-1, 1), (0, -1), (0, 0), (0, 1), (1, -1), (1, 0), (1, 1)]

/-- `find_words_trie(hc, node, store, word, column, label)`, with an
explicit fuel parameter for the general recursion (see the header
comment).  The state threaded through is `(grid, node, store, word)`:
the word-store append, the `is_end` clearing on the reached child, the
sentinel mark `'-'`/restore around the neighbor loop, and the final
buffer-truncation `word[strlen(word) - 1] = '\0'` are all reproduced.
The C code mutates the child subtree in place; since the trie is a proper
tree, re-installing the returned child at `next[index]` is equivalent. -/
def find_words_trie :
    Nat → Grid → Trie → List (List Char) → List Char → Int → Int →
    Grid × Trie × List (List Char) × List Char
  | 0, g, t, s, w, _, _ => (g, t, s, w)
  | fuel + 1, g, t, s, w, c, l =>
    if invalidPos g c l = true ∧ w ≠ [] then (g, t, s, w)
    else
      let ch := gridGet g c l
      let w1 := w ++ [ch]
      let index := CHAR_TO_INDEX ch
      match t.next index with
      | none => (g, t, s, w1.dropLast)
      | some nn =>
        let s1 := if nn.is_end then s ++ [w1] else s
        let nn1 := if nn.is_end then Trie.node false nn.next else nn
        let g1 := gridSet g c l '-'
        let r := neighborOffsets.foldl
          (fun (st : Grid × Trie × List (List Char) × List Char) (d : Int × Int) =>
            if c + d.1 = c ∧ l + d.2 = l then st
            else find_words_trie fuel st.1 st.2.1 st.2.2.1 st.2.2.2 (c + d.1) (l + d.2))
          (g1, nn1, s1, w1)
        let g2 := gridSet r.1 c l ch
        (g2, Trie.node t.is_end (updNext t.next index (some r.2.1)), r.2.2.1,
          r.2.2.2.dropLast)

/-- Inner loop of `find_words` (`for (j = 0; j < strlen(hc->columns[i]);
j++)`): first `Nat` argument counts remaining iterations; the bound is
re-evaluated against the threaded grid each time, as C re-evaluates
`strlen`.  `word[0] = '\0'` resets the buffer, so each call starts with
`[]`. -/
def find_words_inner (F : Nat) (i : Nat) :
    Nat → Grid → Trie → List (List Char) → Nat →
    Grid × Trie × List (List Char)
  | 0, g, t, s, _ => (g, t, s)
  | k + 1, g, t, s, j =>
    if j < (g.getD i []).length then
      let r := find_words_trie F g t s [] (i : Int) (j : Int)
      find_words_inner F i k r.1 r.2.1 r.2.2.1 (j + 1)
    else (g, t, s)

/-- Outer loop of `find_words` (`for (i = 0; i < hc->number_columns; i++)`):
first `Nat` argument counts remaining iterations against the fixed bound
`number_columns`.  The inner loop gets enough iterations for its bound
(`strlen + 1` suffices: the grid is restored by every call, as proved
below). -/
def find_words_outer (F : Nat) :
    Nat → Nat → Grid → Trie → List (List Char) →
    Grid × Trie × List (List Char)
  | 0, _, g, t, s => (g, t, s)
  | rem + 1, i, g, t, s =>
    let r := find_words_inner F i ((g.getD i []).length + 1) g t s 0
    find_words_outer F rem (i + 1) r.1 r.2.1 r.2.2

/-- `find_words(hc, root, store)`.  The fuel handed to `find_words_trie`
is one more than the total cell count, which bounds the reachable
recursion depth (each level marks one previously unmarked cell). -/
def find_words (g : Grid) (t : Trie) (s : List (List Char)) :
    Grid × Trie × List (List Char) :=
  find_words_outer ((g.map List.length).sum + 1) g.length 0 g t s

/-- The `(column, label)` pairs `find_words` starts a search from, in
iteration order. -/
def startCoords (g : Grid) : List (Nat × Nat) :=
  (List.range g.length).flatMap fun i =>
    (List.range (g.getD i []).length).map fun j => (i, j)

/-- One top-level `find_words_trie` call as a fold step over start
coordinates. -/
def find_words_step (F : Nat) (st : Grid × Trie × List (List Char))
    (p : Nat × Nat) : Grid × Trie × List (List Char) :=
  let r := find_words_trie F st.1 st.2.1 st.2.2 [] (p.1 : Int) (p.2 : Int)
  (r.1, r.2.1, r.2.2.1)

/-! ## Ghost-instrumented search

For the path claims the search is replayed with a ghost path variable:
the coordinate `(column, label)` is appended to the ghost path exactly
where the cell's character is appended to the word buffer, and removed
where the buffer is truncated; a recorded word is stored together with
the ghost path current at the moment of recording.  The instrumentation
changes no control flow, and projecting the ghost parts away recovers
`find_words_trie` exactly (proved below). -/

/-- A well-formed trie: every present child sits at an index in
`[0, 26)` — i.e. the child "array" really is the 26-entry array of the C
struct — and its subtree is well-formed.  Holds for every trie the
program builds (`get_trienode` and `insert_trie` on `'A'..'Z'` words). -/
inductive WTrie : Trie → Prop where
  | mk (e : Bool) (ch : Int → Option Trie)
      (hrange : ∀ i t', ch i = some t' → 0 ≤ i ∧ i < 26)
      (hsub : ∀ i t', ch i = some t' → WTrie t') :
      WTrie (Trie.node e ch)

/-- Hex-neighbor relation on grid coordinates: differ by at most 1 in
column and at most 1 in offset, and not identical. -/
def adjacentCell (a b : Int × Int) : Bool :=
  decide ((b.1 - a.1).natAbs ≤ 1) && decide ((b.2 - a.2).natAbs ≤ 1) &&
    decide (a ≠ b)

/-- `chainB f p`: every pair of consecutive entries of `p` satisfies `f`. -/
def chainB (f : (Int × Int) → (Int × Int) → Bool) : List (Int × Int) → Bool
  | [] => true
  | [_] => true
  | a :: b :: r => f a b && chainB f (b :: r)

/-- Ghost-instrumented `find_words_trie` (see section header). -/
def find_words_trieG :
    Nat → Grid → Trie → List (List Char × List (Int × Int)) → List Char →
    List (Int × Int) → Int → Int →
    Grid × Trie × List (List Char × List (Int × Int)) × List Char × List (Int × Int)
  | 0, g, t, s, w, p, _, _ => (g, t, s, w, p)
  | fuel + 1, g, t, s, w, p, c, l =>
    if invalidPos g c l = true ∧ w ≠ [] then (g, t, s, w, p)
    else
      let ch := gridGet g c l
      let w1 := w ++ [ch]
      let p1 := p ++ [(c, l)]
      let index := CHAR_TO_INDEX ch
      match t.next index with
      | none => (g, t, s, w1.dropLast, p1.dropLast)
      | some nn =>
        let s1 := if nn.is_end then s ++ [(w1, p1)] else s
        let nn1 := if nn.is_end then Trie.node false nn.next else nn
        let g1 := gridSet g c l '-'
        let r := neighborOffsets.foldl
          (fun (st : Grid × Trie × List (List Char × List (Int × Int)) ×
                List Char × List (Int × Int)) (d : Int × Int) =>
            if c + d.1 = c ∧ l + d.2 = l then st
            else find_words_trieG fuel st.1 st.2.1 st.2.2.1 st.2.2.2.1
              st.2.2.2.2 (c + d.1) (l + d.2))
          (g1, nn1, s1, w1, p1)
        let g2 := gridSet r.1 c l ch
        (g2, Trie.node t.is_end (updNext t.next index (some r.2.1)), r.2.2.1,
          r.2.2.2.1.dropLast, r.2.2.2.2.dropLast)

/-- Ghost-instrumented inner loop of `find_words`. -/
def find_words_innerG (F : Nat) (i : Nat) :
    Nat → Grid → Trie → List (List Char × List (Int × Int)) → Nat →
    Grid × Trie × List (List Char × List (Int × Int))
  | 0, g, t, s, _ => (g, t, s)
  | k + 1, g, t, s, j =>
    if j < (g.getD i []).length then
      let r := find_words_trieG F g t s [] [] (i : Int) (j : Int)
      find_words_innerG F i k r.1 r.2.1 r.2.2.1 (j + 1)
    else (g, t, s)

/-- Ghost-instrumented outer loop of `find_words`. -/
def find_words_outerG (F : Nat) :
    Nat → Nat → Grid → Trie → List (List Char × List (Int × Int)) →
    Grid × Trie × List (List Char × List (Int × Int))
  | 0, _, g, t, s => (g, t, s)
  | rem + 1, i, g, t, s =>
    let r := find_words_innerG F i ((g.getD i []).length + 1) g t s 0
    find_words_outerG F rem (i + 1) r.1 r.2.1 r.2.2

/-- Ghost-instrumented `find_words`. -/
def find_wordsG (g : Grid) (t : Trie) (s : List (List Char × List (Int × Int))) :
    Grid × Trie × List (List Char × List (Int × Int)) :=
  find_words_outerG ((g.map List.length).sum + 1) g.length 0 g t s

/-! ## List and fold helper lemmas -/

theorem getD_set_self {α : Type} (l : List α) (i : Nat) (v d : α)
    (h : i < l.length) : (l.set i v).getD i d = v := by
  simp [List.getD, List.getElem?_set_self, h]

theorem getD_set_ne {α : Type} (l : List α) {i j : Nat} (v d : α)
    (h : i ≠ j) : (l.set i v).getD j d = l.getD j d := by
  simp [List.getD, List.getElem?_set_ne h]

theorem set_getD_self {α : Type} : ∀ (l : List α) (i : Nat) (d : α),
    l.set i (l.getD i d) = l := by
  intro l
  induction l with
  | nil => intro i d; rfl
  | cons a r ih =>
    intro i d
    cases i with
    | zero => rfl
    | succ j => simpa [List.getD] using ih j d

/-- A fold preserves an invariant preserved by every step. -/
theorem foldl_inv {σ α : Type} (P : σ → Prop) (f : σ → α → σ) :
    ∀ (l : List α), (∀ st a, a ∈ l → P st → P (f st a)) →
      ∀ st, P st → P (l.foldl f st) := by
  intro l
  induction l with
  | nil => intro _ st h; exact h
  | cons a r ih =>
    intro hstep st h
    exact ih (fun st' b hb => hstep st' b (List.mem_cons_of_mem a hb))
      (f st a) (hstep st a (List.mem_cons_self a r) h)

/-- A fold relates start to finish by any reflexive transitive relation
that every step respects. -/
theorem foldl_chain {σ α : Type} (R : σ → σ → Prop)
    (hrefl : ∀ s, R s s) (htrans : ∀ a b c, R a b → R b c → R a c)
    (f : σ → α → σ) :
    ∀ (l : List α), (∀ st a, a ∈ l → R st (f st a)) →
      ∀ st, R st (l.foldl f st) := by
  intro l
  induction l with
  | nil => intro _ st; exact hrefl st
  | cons a r ih =>
    intro hstep st
    exact htrans _ _ _ (hstep st a (List.mem_cons_self a r))
      (ih (fun st' b hb => hstep st' b (List.mem_cons_of_mem a hb)) (f st a))

/-- Two folds over the same list, in lockstep, preserve a binary
relation preserved by the paired steps. -/
theorem foldl_pair {σ τ α : Type} (R : σ → τ → Prop)
    (f : σ → α → σ) (g : τ → α → τ) :
    ∀ (l : List α), (∀ s t a, a ∈ l → R s t → R (f s a) (g t a)) →
      ∀ s t, R s t → R (l.foldl f s) (l.foldl g t) := by
  intro l
  induction l with
  | nil => intro _ s t h; exact h
  | cons a r ih =>
    intro hstep s t h
    exact ih (fun s' t' b hb => hstep s' t' b (List.mem_cons_of_mem a hb))
      (f s a) (g t a) (hstep s t a (List.mem_cons_self a r) h)

/-! ## Grid read/write lemmas -/

theorem gridSet_gridSet (g : Grid) (c l : Int) (x y : Char) :
    gridSet (gridSet g c l x) c l y = gridSet g c l y := by
  unfold gridSet
  by_cases h : 0 ≤ c ∧ 0 ≤ l
  · simp only [if_pos h]
    by_cases hb : c.toNat < g.length
    · rw [getD_set_self _ _ _ _ hb, List.set_set, List.set_set]
    · rw [List.set_eq_of_length_le (Nat.le_of_not_lt hb),
        List.set_eq_of_length_le (Nat.le_of_not_lt hb)]
  · simp only [if_neg h]

theorem gridSet_gridGet_self (g : Grid) (c l : Int) :
    gridSet g c l (gridGet g c l) = g := by
  unfold gridSet gridGet
  by_cases h : 0 ≤ c ∧ 0 ≤ l
  · simp only [if_pos h]
    rw [set_getD_self, set_getD_self]
  · simp only [if_neg h]

/-! ## Restoration: every search frame undoes its grid mark and its word
append (claim C3's core) -/

/-- Every call to `find_words_trie` returns the grid and the word buffer
exactly as it received them: the sentinel mark and the appended character
are both undone on every exit path. -/
theorem find_words_trie_restores :
    ∀ (F : Nat) (g : Grid) (t : Trie) (s : List (List Char)) (w : List Char)
      (c l : Int),
      (find_words_trie F g t s w c l).1 = g ∧
      (find_words_trie F g t s w c l).2.2.2 = w := by
  intro F
  induction F with
  | zero => intro g t s w c l; exact ⟨rfl, rfl⟩
  | succ fuel ih =>
    intro g t s w c l
    simp only [find_words_trie]
    split
    · exact ⟨rfl, rfl⟩
    · split
      · exact ⟨rfl, List.dropLast_concat ..⟩
      · have key : ∀ (init : Grid × Trie × List (List Char) × List Char),
            (neighborOffsets.foldl
              (fun (st : Grid × Trie × List (List Char) × List Char)
                  (d : Int × Int) =>
                if c + d.1 = c ∧ l + d.2 = l then st
                else find_words_trie fuel st.1 st.2.1 st.2.2.1 st.2.2.2
                  (c + d.1) (l + d.2)) init).1 = init.1 ∧
            (neighborOffsets.foldl
              (fun (st : Grid × Trie × List (List Char) × List Char)
                  (d : Int × Int) =>
                if c + d.1 = c ∧ l + d.2 = l then st
                else find_words_trie fuel st.1 st.2.1 st.2.2.1 st.2.2.2
                  (c + d.1) (l + d.2)) init).2.2.2 = init.2.2.2 := by
          intro init
          refine foldl_inv (fun st => st.1 = init.1 ∧ st.2.2.2 = init.2.2.2)
            _ _ ?_ init ⟨rfl, rfl⟩
          intro st d _ hst
          by_cases hd : c + d.1 = c ∧ l + d.2 = l
          · simp only [if_pos hd]; exact hst
          · simp only [if_neg hd]
            exact ⟨((ih _ _ _ _ _ _).1).trans hst.1,
              ((ih _ _ _ _ _ _).2).trans hst.2⟩
        constructor
        · rw [(key _).1]
          rw [gridSet_gridSet, gridSet_gridGet_self]
        · rw [(key _).2]
          exact List.dropLast_concat ..

/-- The inner `find_words` loop leaves the grid untouched. -/
theorem find_words_inner_grid (F i : Nat) :
    ∀ (k : Nat) (g : Grid) (t : Trie) (s : List (List Char)) (j : Nat),
      (find_words_inner F i k g t s j).1 = g := by
  intro k
  induction k with
  | zero => intro g t s j; rfl
  | succ m ih =>
    intro g t s j
    simp only [find_words_inner]
    split
    · rw [ih]
      exact (find_words_trie_restores F g t s [] i j).1
    · rfl

/-- The outer `find_words` loop leaves the grid untouched. -/
theorem find_words_outer_grid (F : Nat) :
    ∀ (rem i : Nat) (g : Grid) (t : Trie) (s : List (List Char)),
      (find_words_outer F rem i g t s).1 = g := by
  intro rem
  induction rem with
  | zero => intro i g t s; rfl
  | succ m ih =>
    intro i g t s
    simp only [find_words_outer]
    rw [ih, find_words_inner_grid]

/-- Claim C3: every recursive search call restores, before returning, both
the grid (the cell it marked with the sentinel gets its original character
back) and the word buffer (the appended character is removed); and
consequently a complete `find_words` run returns the grid exactly as it
found it — every cell's character equals its pre-search value. -/
theorem search_restores_grid_and_buffer :
    (∀ (F : Nat) (g : Grid) (t : Trie) (s : List (List Char)) (w : List Char)
       (c l : Int),
       (find_words_trie F g t s w c l).1 = g ∧
       (find_words_trie F g t s w c l).2.2.2 = w) ∧
    (∀ (g : Grid) (t : Trie) (s : List (List Char)),
       (find_words g t s).1 = g) :=
  ⟨find_words_trie_restores,
   fun g t s => find_words_outer_grid _ _ _ g t s⟩

/-! ## Trie helper lemmas -/

theorem char_of_toNat_eq {a b : Char} (h : a.toNat = b.toNat) : a = b :=
  Char.eq_of_val_eq (UInt32.ext h)

theorem CHAR_TO_INDEX_inj {a b : Char}
    (h : CHAR_TO_INDEX a = CHAR_TO_INDEX b) : a = b := by
  apply char_of_toNat_eq
  unfold CHAR_TO_INDEX at h
  omega

theorem updNext_self (f : Int → Option Trie) (i : Int) (v : Option Trie) :
    updNext f i v i = v := if_pos rfl

theorem updNext_ne (f : Int → Option Trie) (i : Int) (v : Option Trie)
    {j : Int} (h : j ≠ i) : updNext f i v j = f j := if_neg h

theorem next_node (e : Bool) (ch : Int → Option Trie) :
    (Trie.node e ch).next = ch := rfl

theorem is_end_node (e : Bool) (ch : Int → Option Trie) :
    (Trie.node e ch).is_end = e := rfl

theorem trie_accepts_nil (t : Trie) : trie_accepts t [] = t.is_end := rfl

theorem trie_accepts_cons (t : Trie) (c : Char) (r : List Char) :
    trie_accepts t (c :: r) =
      match t.next (CHAR_TO_INDEX c) with
      | none => false
      | some child => trie_accepts child r := rfl


theorem trie_accepts_cons_some {t : Trie} {c : Char} (r : List Char)
    {child : Trie} (h : t.next (CHAR_TO_INDEX c) = some child) :
    trie_accepts t (c :: r) = trie_accepts child r := by
  rw [trie_accepts_cons, h]

theorem trie_accepts_cons_none {t : Trie} {c : Char} (r : List Char)
    (h : t.next (CHAR_TO_INDEX c) = none) :
    trie_accepts t (c :: r) = false := by
  rw [trie_accepts_cons, h]

theorem count_singleton_ne {x y : List Char} (h : x ≠ y) :
    List.count x [y] = 0 := by
  rw [List.count_eq_zero]
  intro hmem
  rw [List.mem_singleton] at hmem
  exact h hmem

theorem ne_append_longer (w : List Char) (ch : Char) :
    ∀ u : List Char, w ≠ (w ++ [ch]) ++ u := by
  intro u hcon
  have hlen := congrArg List.length hcon
  simp at hlen

theorem ne_cons_append {w : List Char} {b ch : Char} (u : List Char)
    (hb : b ≠ ch) : ∀ u' : List Char, w ++ b :: u ≠ (w ++ [ch]) ++ u' := by
  intro u' hcon
  rw [show (w ++ [ch]) ++ u' = w ++ ch :: u' by simp] at hcon
  have h2 := List.append_cancel_left hcon
  exact hb ((List.cons.injEq ..).mp h2).1

/-- Frame step of the counting argument when the reached child is
terminal: the word `w ++ [ch]` is appended to the store and the child's
terminal flag is cleared, so for every word the count+acceptance total
does not grow. -/
theorem frame_count_true (t nn : Trie) (s stR : List (List Char)) (tR : Trie)
    (w : List Char) (ch : Char)
    (heq : t.next (CHAR_TO_INDEX ch) = some nn)
    (hend : nn.is_end = true)
    (hA : ∀ u : List Char,
      List.count ((w ++ [ch]) ++ u) stR + (trie_accepts tR u).toNat ≤
      List.count ((w ++ [ch]) ++ u) (s ++ [w ++ [ch]]) +
        (trie_accepts (Trie.node false nn.next) u).toNat)
    (hB : ∀ x : List Char, (∀ u : List Char, x ≠ (w ++ [ch]) ++ u) →
      List.count x stR = List.count x (s ++ [w ++ [ch]])) :
    (∀ v : List Char,
      List.count (w ++ v) stR +
        (trie_accepts
          (Trie.node t.is_end (updNext t.next (CHAR_TO_INDEX ch) (some tR)))
          v).toNat ≤
      List.count (w ++ v) s + (trie_accepts t v).toNat) ∧
    (∀ x : List Char, (∀ v : List Char, x ≠ w ++ v) →
      List.count x stR = List.count x s) := by
  have hsub : ∀ x : List Char, (∀ u : List Char, x ≠ (w ++ [ch]) ++ u) →
      List.count x stR = List.count x s := by
    intro x hx
    rw [hB x hx, List.count_append,
      count_singleton_ne (by simpa using hx []), Nat.add_zero]
  constructor
  · intro v
    cases v with
    | nil =>
      rw [List.append_nil, trie_accepts_nil, trie_accepts_nil, is_end_node]
      rw [hsub w (ne_append_longer w ch)]
    | cons b u =>
      by_cases hb : b = ch
      · subst hb
        rw [trie_accepts_cons_some u
          (show (Trie.node t.is_end
              (updNext t.next (CHAR_TO_INDEX b) (some tR))).next
              (CHAR_TO_INDEX b) = some tR from updNext_self ..),
          trie_accepts_cons_some u heq]
        rw [show w ++ b :: u = (w ++ [b]) ++ u by simp]
        refine le_trans (hA u) ?_
        rw [List.count_append]
        cases u with
        | nil =>
          rw [List.append_nil, trie_accepts_nil, trie_accepts_nil,
            is_end_node, hend]
          simp
        | cons e u' =>
          rw [count_singleton_ne (by
            intro hcon
            have hlen := congrArg List.length hcon
            simp at hlen)]
          rw [show trie_accepts (Trie.node false nn.next) (e :: u') =
              trie_accepts nn (e :: u') by
            rw [trie_accepts_cons, trie_accepts_cons, next_node]]
          simp
      · have hidx : CHAR_TO_INDEX b ≠ CHAR_TO_INDEX ch :=
          fun hcon => hb (CHAR_TO_INDEX_inj hcon)
        rw [show trie_accepts
            (Trie.node t.is_end (updNext t.next (CHAR_TO_INDEX ch) (some tR)))
            (b :: u) = trie_accepts t (b :: u) by
          rw [trie_accepts_cons, trie_accepts_cons, next_node,
            updNext_ne _ _ _ hidx]]
        rw [hsub (w ++ b :: u) (ne_cons_append u hb)]
  · intro x hx
    refine hsub x ?_
    intro u
    rw [show (w ++ [ch]) ++ u = w ++ ch :: u by simp]
    exact hx (ch :: u)

/-- Frame step of the counting argument when the reached child is not
terminal: nothing is appended and no flag changes. -/
theorem frame_count_false (t nn : Trie) (s stR : List (List Char)) (tR : Trie)
    (w : List Char) (ch : Char)
    (heq : t.next (CHAR_TO_INDEX ch) = some nn)
    (hA : ∀ u : List Char,
      List.count ((w ++ [ch]) ++ u) stR + (trie_accepts tR u).toNat ≤
      List.count ((w ++ [ch]) ++ u) s + (trie_accepts nn u).toNat)
    (hB : ∀ x : List Char, (∀ u : List Char, x ≠ (w ++ [ch]) ++ u) →
      List.count x stR = List.count x s) :
    (∀ v : List Char,
      List.count (w ++ v) stR +
        (trie_accepts
          (Trie.node t.is_end (updNext t.next (CHAR_TO_INDEX ch) (some tR)))
          v).toNat ≤
      List.count (w ++ v) s + (trie_accepts t v).toNat) ∧
    (∀ x : List Char, (∀ v : List Char, x ≠ w ++ v) →
      List.count x stR = List.count x s) := by
  constructor
  · intro v
    cases v with
    | nil =>
      rw [List.append_nil, trie_accepts_nil, trie_accepts_nil, is_end_node]
      rw [hB w (ne_append_longer w ch)]
    | cons b u =>
      by_cases hb : b = ch
      · subst hb
        rw [trie_accepts_cons_some u
          (show (Trie.node t.is_end
              (updNext t.next (CHAR_TO_INDEX b) (some tR))).next
              (CHAR_TO_INDEX b) = some tR from updNext_self ..),
          trie_accepts_cons_some u heq]
        rw [show w ++ b :: u = (w ++ [b]) ++ u by simp]
        exact hA u
      · have hidx : CHAR_TO_INDEX b ≠ CHAR_TO_INDEX ch :=
          fun hcon => hb (CHAR_TO_INDEX_inj hcon)
        rw [show trie_accepts
            (Trie.node t.is_end (updNext t.next (CHAR_TO_INDEX ch) (some tR)))
            (b :: u) = trie_accepts t (b :: u) by
          rw [trie_accepts_cons, trie_accepts_cons, next_node,
            updNext_ne _ _ _ hidx]]
        rw [hB (w ++ b :: u) (ne_cons_append u hb)]
  · intro x hx
    refine hB x ?_
    intro u
    rw [show (w ++ [ch]) ++ u = w ++ ch :: u by simp]
    exact hx (ch :: u)

/-! ## Word-count monotonicity: the duplicate-suppression mechanism
(claim C1's core)

For every word `x`, the quantity
`(number of copies of x in the store) + (1 if the trie still accepts x)`
never increases across a `find_words_trie` call: a word is appended to the
store only when the trie child reached accepts it, and that child's
terminal flag is cleared in the same step.  The statement is relative to
the current node and word buffer: the words the call can append all extend
the current buffer `w`, and their acceptance is measured from the current
node `t`. -/

theorem find_words_trie_count_mono :
    ∀ (F : Nat) (g : Grid) (t : Trie) (s : List (List Char)) (w : List Char)
      (c l : Int),
      (∀ v : List Char,
        List.count (w ++ v) (find_words_trie F g t s w c l).2.2.1 +
          (trie_accepts (find_words_trie F g t s w c l).2.1 v).toNat ≤
        List.count (w ++ v) s + (trie_accepts t v).toNat) ∧
      (∀ x : List Char, (∀ v : List Char, x ≠ w ++ v) →
        List.count x (find_words_trie F g t s w c l).2.2.1 = List.count x s) := by
  intro F
  induction F with
  | zero => intro g t s w c l; exact ⟨fun v => le_refl _, fun x _ => rfl⟩
  | succ fuel ih =>
    intro g t s w c l
    simp only [find_words_trie]
    split
    · exact ⟨fun v => le_refl _, fun x _ => rfl⟩
    · split
      · exact ⟨fun v => le_refl _, fun x _ => rfl⟩
      · rename_i nn heq
        have key : ∀ init : Grid × Trie × List (List Char) × List Char,
            (neighborOffsets.foldl
              (fun (st : Grid × Trie × List (List Char) × List Char)
                  (d : Int × Int) =>
                if c + d.1 = c ∧ l + d.2 = l then st
                else find_words_trie fuel st.1 st.2.1 st.2.2.1 st.2.2.2
                  (c + d.1) (l + d.2)) init).2.2.2 = init.2.2.2 ∧
            (∀ u : List Char,
              List.count (init.2.2.2 ++ u)
                  (neighborOffsets.foldl
                    (fun (st : Grid × Trie × List (List Char) × List Char)
                        (d : Int × Int) =>
                      if c + d.1 = c ∧ l + d.2 = l then st
                      else find_words_trie fuel st.1 st.2.1 st.2.2.1 st.2.2.2
                        (c + d.1) (l + d.2)) init).2.2.1 +
                (trie_accepts
                  (neighborOffsets.foldl
                    (fun (st : Grid × Trie × List (List Char) × List Char)
                        (d : Int × Int) =>
                      if c + d.1 = c ∧ l + d.2 = l then st
                      else find_words_trie fuel st.1 st.2.1 st.2.2.1 st.2.2.2
                        (c + d.1) (l + d.2)) init).2.1 u).toNat ≤
              List.count (init.2.2.2 ++ u) init.2.2.1 +
                (trie_accepts init.2.1 u).toNat) ∧
            (∀ x : List Char, (∀ u : List Char, x ≠ init.2.2.2 ++ u) →
              List.count x
                  (neighborOffsets.foldl
                    (fun (st : Grid × Trie × List (List Char) × List Char)
                        (d : Int × Int) =>
                      if c + d.1 = c ∧ l + d.2 = l then st
                      else find_words_trie fuel st.1 st.2.1 st.2.2.1 st.2.2.2
                        (c + d.1) (l + d.2)) init).2.2.1 =
                List.count x init.2.2.1) := by
          intro init
          refine foldl_chain
            (fun st st' => st'.2.2.2 = st.2.2.2 ∧
              (∀ u : List Char,
                List.count (st.2.2.2 ++ u) st'.2.2.1 +
                  (trie_accepts st'.2.1 u).toNat ≤
                List.count (st.2.2.2 ++ u) st.2.2.1 +
                  (trie_accepts st.2.1 u).toNat) ∧
              (∀ x : List Char, (∀ u : List Char, x ≠ st.2.2.2 ++ u) →
                List.count x st'.2.2.1 = List.count x st.2.2.1))
            ?_ ?_ _
            neighborOffsets ?_ init
          · intro st
            exact ⟨rfl, fun u => le_refl _, fun x _ => rfl⟩
          · intro A B C hAB hBC
            obtain ⟨hwB, hB1, hB2⟩ := hAB
            obtain ⟨hwC, hC1, hC2⟩ := hBC
            refine ⟨hwC.trans hwB, ?_, ?_⟩
            · intro u
              have h2 := hC1 u
              rw [hwB] at h2
              exact h2.trans (hB1 u)
            · intro x hx
              have h2 := hC2 x (by rw [hwB]; exact hx)
              rw [h2]
              exact hB2 x hx
          · intro st d _
            by_cases hskip : c + d.1 = c ∧ l + d.2 = l
            · rw [if_pos hskip]
              exact ⟨rfl, fun u => le_refl _, fun x _ => rfl⟩
            · rw [if_neg hskip]
              refine ⟨(find_words_trie_restores fuel st.1 st.2.1 st.2.2.1
                st.2.2.2 _ _).2, ?_, ?_⟩
              · intro u
                exact (ih st.1 st.2.1 st.2.2.1 st.2.2.2 _ _).1 u
              · intro x hx
                exact (ih st.1 st.2.1 st.2.2.1 st.2.2.2 _ _).2 x hx
        by_cases hend : nn.is_end = true
        · rw [if_pos hend, if_pos hend]
          exact frame_count_true t nn s _ _ w (gridGet g c l) heq hend
            (key (gridSet g c l '-', Trie.node false nn.next,
              s ++ [w ++ [gridGet g c l]], w ++ [gridGet g c l])).2.1
            (key (gridSet g c l '-', Trie.node false nn.next,
              s ++ [w ++ [gridGet g c l]], w ++ [gridGet g c l])).2.2
        · rw [if_neg hend, if_neg hend]
          exact frame_count_false t nn s _ _ w (gridGet g c l) heq
            (key (gridSet g c l '-', nn, s, w ++ [gridGet g c l])).2.1
            (key (gridSet g c l '-', nn, s, w ++ [gridGet g c l])).2.2

/-- The count+acceptance total is monotone across the inner `find_words`
loop. -/
theorem find_words_inner_counts (F i : Nat) :
    ∀ (k : Nat) (g : Grid) (t : Trie) (s : List (List Char)) (j : Nat)
      (x : List Char),
      List.count x (find_words_inner F i k g t s j).2.2 +
        (trie_accepts (find_words_inner F i k g t s j).2.1 x).toNat ≤
      List.count x s + (trie_accepts t x).toNat := by
  intro k
  induction k with
  | zero => intro g t s j x; exact le_refl _
  | succ m ih =>
    intro g t s j x
    simp only [find_words_inner]
    split
    · refine le_trans (ih _ _ _ _ x) ?_
      exact (find_words_trie_count_mono F g t s [] i j).1 x
    · exact le_refl _

/-- The count+acceptance total is monotone across the outer `find_words`
loop. -/
theorem find_words_outer_counts (F : Nat) :
    ∀ (rem i : Nat) (g : Grid) (t : Trie) (s : List (List Char))
      (x : List Char),
      List.count x (find_words_outer F rem i g t s).2.2 +
        (trie_accepts (find_words_outer F rem i g t s).2.1 x).toNat ≤
      List.count x s + (trie_accepts t x).toNat := by
  intro rem
  induction rem with
  | zero => intro i g t s x; exact le_refl _
  | succ m ih =>
    intro i g t s x
    simp only [find_words_outer]
    exact le_trans (ih _ _ _ _ x) (find_words_inner_counts _ _ _ _ _ _ _ x)

/-- The at-most-once half of claim C1, as a standalone helper. -/
theorem find_words_count_le_one
    (g : Grid) (t : Trie) (x : List Char) :
    List.count x (find_words g t []).2.2 ≤ 1 := by
  have h := find_words_outer_counts ((g.map List.length).sum + 1) g.length 0
    g t [] x
  simp only [List.count_nil] at h
  have hb : (trie_accepts t x).toNat ≤ 1 := by
    cases trie_accepts t x <;> simp
  unfold find_words
  omega

/-! ## Pruning and the shape of the top-level traversal (claim C7) -/

/-- The early-return branch, as a standalone helper. -/
theorem find_words_trie_prune (F : Nat) (g : Grid) (t : Trie)
    (s : List (List Char)) (w : List Char) (c l : Int)
    (hw : w ≠ []) (hinv : invalidPos g c l = true) :
    find_words_trie F g t s w c l = (g, t, s, w) := by
  cases F with
  | zero => rfl
  | succ fuel =>
    simp only [find_words_trie]
    rw [if_pos ⟨hinv, hw⟩]

/-- Unrolling the inner `find_words` loop: with at least
`strlen(column i) - j` iterations available it folds one top-level search
call over each remaining offset `j, j+1, ..., strlen - 1`. -/
theorem find_words_inner_unroll (F i : Nat) :
    ∀ (k : Nat) (g : Grid) (t : Trie) (s : List (List Char)) (j : Nat),
      (g.getD i []).length ≤ j + k →
      find_words_inner F i k g t s j =
        (List.range' j ((g.getD i []).length - j)).foldl
          (fun st jj => find_words_step F st (i, jj)) (g, t, s) := by
  intro k
  induction k with
  | zero =>
    intro g t s j hk
    have h0 : (g.getD i []).length - j = 0 := by omega
    rw [h0]
    rfl
  | succ m ih =>
    intro g t s j hk
    simp only [find_words_inner]
    split
    · rename_i hj
      have hg1 : (find_words_trie F g t s [] (i : Int) (j : Int)).1 = g :=
        (find_words_trie_restores F g t s [] i j).1
      have hlen : (g.getD i []).length - j = ((g.getD i []).length - (j + 1)) + 1 := by
        omega
      rw [hlen, List.range'_succ, List.foldl_cons]
      have hstep : (find_words_step F (g, t, s) (i, j)) =
          ((find_words_trie F g t s [] (i : Int) (j : Int)).1,
           (find_words_trie F g t s [] (i : Int) (j : Int)).2.1,
           (find_words_trie F g t s [] (i : Int) (j : Int)).2.2.1) := rfl
      rw [hstep, hg1]
      have := ih g (find_words_trie F g t s [] (i : Int) (j : Int)).2.1
        (find_words_trie F g t s [] (i : Int) (j : Int)).2.2.1 (j + 1) (by omega)
      rw [this]
    · rename_i hj
      have h0 : (g.getD i []).length - j = 0 := by omega
      rw [h0]
      rfl

/-- Unrolling the outer `find_words` loop into a fold over all start
coordinates of the remaining columns. -/
theorem find_words_outer_unroll (F : Nat) :
    ∀ (rem i : Nat) (g : Grid) (t : Trie) (s : List (List Char)),
      g.length ≤ i + rem →
      find_words_outer F rem i g t s =
        ((List.range' i (g.length - i)).flatMap (fun ii =>
          (List.range (g.getD ii []).length).map (fun j => (ii, j)))).foldl
          (find_words_step F) (g, t, s) := by
  intro rem
  induction rem with
  | zero =>
    intro i g t s hk
    have h0 : g.length - i = 0 := by omega
    rw [h0]
    rfl
  | succ m ih =>
    intro i g t s hk
    by_cases hi : i < g.length
    · have hlen : g.length - i = (g.length - (i + 1)) + 1 := by omega
      have hinner := find_words_inner_unroll F i ((g.getD i []).length + 1)
        g t s 0 (by omega)
      rw [Nat.sub_zero, ← List.range_eq_range'] at hinner
      have hgrid : (find_words_inner F i ((g.getD i []).length + 1) g t s 0).1 = g :=
        find_words_inner_grid F i _ g t s 0
      simp only [find_words_outer]
      rw [hgrid, hinner]
      rw [hinner] at hgrid
      rw [ih (i + 1) g _ _ (by omega)]
      rw [hlen, List.range'_succ, List.flatMap_cons, List.foldl_append,
        List.foldl_map]
      have heta :
          ((g,
            (List.foldl (fun st jj => find_words_step F st (i, jj)) (g, t, s)
              (List.range (g.getD i []).length)).2.1,
            (List.foldl (fun st jj => find_words_step F st (i, jj)) (g, t, s)
              (List.range (g.getD i []).length)).2.2) :
            Grid × Trie × List (List Char)) =
          List.foldl (fun st jj => find_words_step F st (i, jj)) (g, t, s)
            (List.range (g.getD i []).length) :=
        (congrArg (fun x => ((x,
          (List.foldl (fun st jj => find_words_step F st (i, jj)) (g, t, s)
            (List.range (g.getD i []).length)).2.1,
          (List.foldl (fun st jj => find_words_step F st (i, jj)) (g, t, s)
            (List.range (g.getD i []).length)).2.2) :
          Grid × Trie × List (List Char))) hgrid.symm).trans rfl
      rw [heta]
    · have hempty : (g.getD i []).length = 0 := by
        have hd : g.getD i [] = [] := List.getD_eq_default _ _ (by omega)
        rw [hd]
        rfl
      simp only [find_words_outer]
      rw [hempty, Nat.zero_add]
      have hin : find_words_inner F i 1 g t s 0 = (g, t, s) := by
        simp only [find_words_inner]
        rw [if_neg (by omega)]
      rw [hin]
      rw [ih (i + 1) g t s (by omega)]
      have h1 : g.length - i = 0 := by omega
      have h2 : g.length - (i + 1) = 0 := by omega
      rw [h1, h2, List.range'_zero, List.range'_zero]

/-- Claim C7: a recursive search call returns immediately — store, grid,
word buffer and trie unchanged — when the coordinate is out of bounds or
the cell holds the sentinel, provided the word buffer is non-empty; and
`find_words` is exactly a fold of top-level calls (with empty buffer) over
the start coordinates, each of which is in bounds — so the grid-cell read
in the non-returning branch of a top-level call is within bounds. -/
theorem search_prunes_and_top_calls_in_bounds :
    (∀ (F : Nat) (g : Grid) (t : Trie) (s : List (List Char)) (w : List Char)
       (c l : Int), w ≠ [] → invalidPos g c l = true →
       find_words_trie F g t s w c l = (g, t, s, w)) ∧
    (∀ (g : Grid) (t : Trie) (s : List (List Char)),
       find_words g t s =
         (startCoords g).foldl
           (find_words_step ((g.map List.length).sum + 1)) (g, t, s)) ∧
    (∀ (g : Grid) (p : Nat × Nat), p ∈ startCoords g →
       p.1 < g.length ∧ p.2 < (g.getD p.1 []).length) := by
  refine ⟨find_words_trie_prune, ?_, ?_⟩
  · intro g t s
    unfold find_words startCoords
    rw [find_words_outer_unroll _ g.length 0 g t s (by omega)]
    rw [Nat.sub_zero, ← List.range_eq_range']
  · intro g p hp
    unfold startCoords at hp
    simp only [List.mem_flatMap, List.mem_map, List.mem_range] at hp
    obtain ⟨i, hi, j, hj, rfl⟩ := hp
    exact ⟨hi, hj⟩

/-- Witness for C7 at a concrete input: with a non-empty buffer and an
out-of-bounds column, the call returns its state unchanged. -/
theorem search_prunes_witness :
    (['A'] ≠ ([] : List Char)) ∧ invalidPos [['A']] (-1) 0 = true ∧
    find_words_trie 1 [['A']] get_trienode [] ['A'] (-1) 0 =
      ([['A']], get_trienode, [], ['A']) :=
  ⟨by decide, by decide,
    search_prunes_and_top_calls_in_bounds.1 1 [['A']] get_trienode [] ['A']
      (-1) 0 (by decide) (by decide)⟩

/-! ## Trie insertion: idempotence (claim C8) and membership (claim C6) -/

theorem updNext_updNext (f : Int → Option Trie) (i : Int)
    (v v' : Option Trie) : updNext (updNext f i v) i v' = updNext f i v' := by
  funext j
  unfold updNext
  by_cases hj : j = i
  · rw [if_pos hj, if_pos hj]
  · rw [if_neg hj, if_neg hj, if_neg hj]

/-- Inserting a word makes the trie accept it (the final node of the walk
has its terminal flag set). -/
theorem trie_accepts_insert_self :
    ∀ (w : List Char) (t : Trie),
      trie_accepts (insert_trie t w) w = true := by
  intro w
  induction w with
  | nil => intro t; cases t; rfl
  | cons c rest ih =>
    intro t
    cases t with
    | node e ch =>
      simp only [insert_trie]
      rw [trie_accepts_cons_some rest
        (show (Trie.node e (updNext ch (CHAR_TO_INDEX c)
            (some (insert_trie ((ch (CHAR_TO_INDEX c)).getD get_trienode)
              rest)))).next (CHAR_TO_INDEX c) = _ from updNext_self ..)]
      exact ih _

/-- Claim C8: inserting the same word twice leaves the trie structurally
identical to inserting it once (the second insert creates nothing new),
and the word's final node is terminal after the first insert, so the
second one only re-sets an already-true flag. -/
theorem insert_trie_idempotent :
    (∀ (t : Trie) (w : List Char),
      insert_trie (insert_trie t w) w = insert_trie t w) ∧
    (∀ (t : Trie) (w : List Char),
      trie_accepts (insert_trie t w) w = true) := by
  constructor
  · intro t w
    induction w generalizing t with
    | nil => cases t; rfl
    | cons c rest ih =>
      cases t with
      | node e ch =>
        simp only [insert_trie, updNext_self, Option.getD_some]
        rw [ih, updNext_updNext]
  · intro t w
    exact trie_accepts_insert_self w t

/-- Effect of one insertion on acceptance: exactly the inserted word
becomes newly accepted.  (Distinct characters always get distinct child
indices, `CHAR_TO_INDEX` being injective.) -/
theorem trie_accepts_insert :
    ∀ (w : List Char) (t : Trie) (v : List Char),
      trie_accepts (insert_trie t w) v = true ↔
        (v = w ∨ trie_accepts t v = true) := by
  intro w
  induction w with
  | nil =>
    intro t v
    cases t with
    | node e ch =>
      cases v with
      | nil => simp [insert_trie, trie_accepts_nil, is_end_node]
      | cons b u =>
        simp only [insert_trie]
        rw [trie_accepts_cons, trie_accepts_cons, next_node, next_node]
        simp
  | cons c rest ih =>
    intro t v
    cases t with
    | node e ch =>
      cases v with
      | nil =>
        simp only [insert_trie, trie_accepts_nil, is_end_node]
        simp
      | cons b u =>
        by_cases hb : b = c
        · subst hb
          simp only [insert_trie]
          rw [trie_accepts_cons_some u
            (show (Trie.node e (updNext ch (CHAR_TO_INDEX b)
                (some (insert_trie ((ch (CHAR_TO_INDEX b)).getD get_trienode)
                  rest)))).next (CHAR_TO_INDEX b) = _ from updNext_self ..)]
          rw [ih]
          cases hcc : ch (CHAR_TO_INDEX b) with
          | none =>
            rw [trie_accepts_cons, next_node, hcc]
            simp only [Option.getD_none]
            constructor
            · rintro (huw | hemp)
              · exact Or.inl (by rw [huw])
              · exfalso
                revert hemp
                cases u with
                | nil => simp [get_trienode, trie_accepts_nil, is_end_node]
                | cons e' u' =>
                  rw [trie_accepts_cons_none u'
                    (show get_trienode.next (CHAR_TO_INDEX e') = none from rfl)]
                  simp
            · rintro (hvw | hfalse)
              · exact Or.inl ((List.cons.injEq ..).mp hvw).2
              · simp at hfalse
          | some child =>
            rw [trie_accepts_cons_some u (show (Trie.node e ch).next
                (CHAR_TO_INDEX b) = some child from hcc)]
            simp only [Option.getD_some]
            constructor
            · rintro (huw | hacc)
              · exact Or.inl (by rw [huw])
              · exact Or.inr hacc
            · rintro (hvw | hacc)
              · exact Or.inl ((List.cons.injEq ..).mp hvw).2
              · exact Or.inr hacc
        · have hidx : CHAR_TO_INDEX b ≠ CHAR_TO_INDEX c :=
            fun hcon => hb (CHAR_TO_INDEX_inj hcon)
          simp only [insert_trie]
          rw [trie_accepts_cons, trie_accepts_cons, next_node, next_node,
            updNext_ne _ _ _ hidx]
          have hne : b :: u ≠ c :: rest := fun hcon =>
            hb ((List.cons.injEq ..).mp hcon).1
          simp [hne]

/-- The fresh root accepts nothing. -/
theorem trie_accepts_empty : ∀ v : List Char,
    trie_accepts get_trienode v = false := by
  intro v
  cases v with
  | nil => rfl
  | cons c u =>
    exact trie_accepts_cons_none u
      (show get_trienode.next (CHAR_TO_INDEX c) = none from rfl)

/-- Acceptance after folding a dictionary into a trie. -/
theorem trie_accepts_foldl :
    ∀ (ws : List (List Char)) (t : Trie) (v : List Char),
      trie_accepts (ws.foldl (fun t w => insert_trie t w) t) v = true ↔
        (v ∈ ws ∨ trie_accepts t v = true) := by
  intro ws
  induction ws with
  | nil => intro t v; simp
  | cons w ws' ih =>
    intro t v
    rw [List.foldl_cons, ih, trie_accepts_insert]
    constructor
    · rintro (hmem | hvw | hacc)
      · exact Or.inl (List.mem_cons_of_mem w hmem)
      · exact Or.inl (hvw ▸ List.mem_cons_self w ws')
      · exact Or.inr hacc
    · rintro (hmem | hacc)
      · rcases List.mem_cons.mp hmem with hvw | hmem'
        · exact Or.inr (Or.inl hvw)
        · exact Or.inl hmem'
      · exact Or.inr (Or.inr hacc)

/-- Claim C6: after building the trie from a dictionary of `'A'..'Z'`
words, the trie accepts exactly the inserted words: descending along an
inserted word reaches a node with its terminal flag set, and descending
along any other `'A'..'Z'` symbol sequence either falls off the trie or
ends at a non-terminal node (both cases are `trie_accepts ... = false`). -/
theorem build_from_dictionary_membership
    (ws : List (List Char)) (v : List Char)
    (hws : ∀ w ∈ ws, ∀ ch ∈ w, 'A' ≤ ch ∧ ch ≤ 'Z')
    (hv : ∀ ch ∈ v, 'A' ≤ ch ∧ ch ≤ 'Z') :
    trie_accepts (build_from_dictionary ws) v = true ↔ v ∈ ws := by
  unfold build_from_dictionary
  rw [trie_accepts_foldl, trie_accepts_empty]
  simp

/-- Witness for C6: a concrete dictionary, one member and one
non-member probe. -/
theorem build_from_dictionary_membership_witness :
    ((∀ w ∈ [['C', 'A', 'R']], ∀ ch ∈ w, 'A' ≤ ch ∧ ch ≤ 'Z') ∧
     (∀ ch ∈ ['C', 'A', 'R'], 'A' ≤ ch ∧ ch ≤ 'Z') ∧
     (∀ ch ∈ ['C', 'A'], 'A' ≤ ch ∧ ch ≤ 'Z')) ∧
    (trie_accepts (build_from_dictionary [['C', 'A', 'R']]) ['C', 'A', 'R'] =
        true ↔ ['C', 'A', 'R'] ∈ [['C', 'A', 'R']]) ∧
    (trie_accepts (build_from_dictionary [['C', 'A', 'R']]) ['C', 'A'] =
        true ↔ ['C', 'A'] ∈ [['C', 'A', 'R']]) :=
  ⟨⟨by decide, by decide, by decide⟩,
   build_from_dictionary_membership [['C', 'A', 'R']] ['C', 'A', 'R']
     (by decide) (by decide),
   build_from_dictionary_membership [['C', 'A', 'R']] ['C', 'A']
     (by decide) (by decide)⟩

/-- Claim C10: the symbol-to-index conversion of the 26-entry child
array is in `[0, 26)` exactly for characters in `'A'..'Z'` — insertion
and search index `next` with `CHAR_TO_INDEX` unchecked, so any other
symbol produces an index outside the array. -/
theorem CHAR_TO_INDEX_in_range_iff (c : Char) :
    ('A' ≤ c ∧ c ≤ 'Z') ↔ (0 ≤ CHAR_TO_INDEX c ∧ CHAR_TO_INDEX c < 26) := by
  unfold CHAR_TO_INDEX
  rw [Char.le_def, Char.le_def, UInt32.le_def, UInt32.le_def]
  show (65 ≤ c.toNat ∧ c.toNat ≤ 90) ↔
    (0 ≤ (c.toNat : Int) - 65 ∧ (c.toNat : Int) - 65 < 26)
  omega

/-! ## `fill_trie` reads lines and inserts them (claim C9) -/

/-- `fgets` on a stream beginning with a newline-terminated line shorter
than the buffer returns exactly that line, newline included. -/
theorem fgetsLine_exact :
    ∀ (w : List Char) (n : Nat) (r : List Char),
      (∀ ch ∈ w, ch ≠ '\n') → w.length < n →
      fgetsLine n (w ++ '\n' :: r) = (w ++ ['\n'], r) := by
  intro w
  induction w with
  | nil =>
    intro n r _ hn
    cases n with
    | zero => omega
    | succ m => simp [fgetsLine]
  | cons a w' ih =>
    intro n r hch hn
    cases n with
    | zero => omega
    | succ m =>
      have ha : a ≠ '\n' := hch a (List.mem_cons_self a w')
      simp only [List.cons_append, fgetsLine, ha, if_false, List.append_eq]
      rw [ih m r (fun ch hc => hch ch (List.mem_cons_of_mem a hc)) (by
        simpa using Nat.lt_of_succ_lt_succ hn)]

/-- Claim C9: on a dictionary stream made of newline-terminated lines of
at most 1022 symbols (no NUL, no interior newline), `fill_trie` inserts
exactly each line with its newline stripped — and nothing else — in
order. -/
theorem fill_trie_inserts_each_line
    (root : Trie) (ws : List (List Char))
    (hws : ∀ w ∈ ws, w.length ≤ 1022 ∧
      ∀ ch ∈ w, ch ≠ '\n' ∧ ch ≠ Char.ofNat 0) :
    fill_trie root ((ws.map (fun w => w ++ ['\n'])).flatten) =
      ws.foldl (fun t w => insert_trie t w) root := by
  induction ws generalizing root with
  | nil =>
    rw [fill_trie]
    simp
  | cons w ws' ih =>
    obtain ⟨hlen, hchars⟩ := hws w (List.mem_cons_self w ws')
    have hne : (w ++ ['\n']) ++ (ws'.map (fun w => w ++ ['\n'])).flatten ≠ [] := by
      simp
    rw [List.map_cons, List.flatten_cons, fill_trie, dif_neg (by
      rw [List.append_assoc] at hne ⊢
      exact hne)]
    have hstream : (w ++ ['\n']) ++ (ws'.map (fun w => w ++ ['\n'])).flatten =
        w ++ '\n' :: (ws'.map (fun w => w ++ ['\n'])).flatten := by
      simp
    rw [hstream, fgetsLine_exact w 1023 _ (fun ch hc => (hchars ch hc).1)
      (by omega)]
    simp only
    have hstrip : c_strip (w ++ ['\n']) = w := by
      unfold c_strip
      rw [List.takeWhile_eq_self_iff.mpr (by
        intro a ha
        rcases List.mem_append.mp ha with haw | hanl
        · simpa using (hchars a haw).2
        · rw [List.mem_singleton] at hanl
          subst hanl
          decide)]
      exact List.dropLast_concat ..
    rw [hstrip]
    rw [ih (insert_trie root w) (fun v hv => hws v (List.mem_cons_of_mem w hv))]
    rfl

/-- Witness for C9 at a concrete two-line dictionary. -/
theorem fill_trie_inserts_each_line_witness :
    (∀ w ∈ [['A', 'B'], ['C']], w.length ≤ 1022 ∧
      ∀ ch ∈ w, ch ≠ '\n' ∧ ch ≠ Char.ofNat 0) ∧
    fill_trie get_trienode
        ((([['A', 'B'], ['C']]).map (fun w => w ++ ['\n'])).flatten) =
      ([['A', 'B'], ['C']]).foldl (fun t w => insert_trie t w) get_trienode :=
  ⟨by decide,
   fill_trie_inserts_each_line get_trienode [['A', 'B'], ['C']] (by decide)⟩

/-! ## Honeycomb shape (claim C4) -/

theorem writeAt_length :
    ∀ (src : List Char) (dst : List Char) (off : Nat),
      (writeAt dst off src).length = dst.length := by
  intro src
  induction src with
  | nil => intro dst off; rfl
  | cons c rest ih =>
    intro dst off
    simp only [writeAt]
    rw [ih, List.length_set]

theorem hcombInner_length (layers : List (List Char)) (n i : Nat) :
    ∀ (j : Nat) (col : List Char),
      (hcombInner layers n i col j).length = col.length := by
  intro j
  induction j with
  | zero => intro col; rfl
  | succ m ih =>
    intro col
    simp only [hcombInner]
    split
    · rw [ih, List.length_set, List.length_set]
    · rfl

theorem hcomb_store_col_length (layers : List (List Char)) (n i : Nat) :
    (hcomb_store_col layers n i).length = 2 * n - i := by
  unfold hcomb_store_col
  rw [hcombInner_length, writeAt_length, List.length_replicate]

theorem hcombStoreLoop_length (layers : List (List Char)) (n : Nat)
    (right : Bool) :
    ∀ (k : Nat) (cols : List (Option (List Char))),
      (hcombStoreLoop layers n right cols k).length = cols.length := by
  intro k
  induction k with
  | zero => intro cols; rfl
  | succ m ih =>
    intro cols
    simp only [hcombStoreLoop]
    rw [ih, List.length_set]

/-- The right-half store loop fills columns `n+1 .. n+k` and touches
nothing else. -/
theorem hcombStoreLoop_getD_right (layers : List (List Char)) (n : Nat) :
    ∀ (k : Nat) (cols : List (Option (List Char))) (p : Nat),
      2 * n < cols.length → k ≤ n →
      (hcombStoreLoop layers n true cols k).getD p none =
        if n + 1 ≤ p ∧ p ≤ n + k then
          some (hcomb_store_col layers n (p - n - 1))
        else cols.getD p none := by
  intro k
  induction k with
  | zero =>
    intro cols p _ _
    rw [if_neg (by omega)]
    rfl
  | succ m ih =>
    intro cols p hlen hk
    simp only [hcombStoreLoop, if_true]
    rw [ih (cols.set (n + m + 1) (some (hcomb_store_col layers n m))) p
      (by rw [List.length_set]; exact hlen) (by omega)]
    by_cases h1 : n + 1 ≤ p ∧ p ≤ n + m
    · rw [if_pos h1, if_pos (by omega)]
    · rw [if_neg h1]
      by_cases h2 : p = n + m + 1
      · subst h2
        rw [getD_set_self _ _ _ _ (by omega), if_pos (by omega)]
        have hm : n + m + 1 - n - 1 = m := by omega
        rw [hm]
      · rw [getD_set_ne _ _ _ (fun hcon => h2 hcon.symm), if_neg (by omega)]

/-- The left-half store loop fills columns `n-k .. n-1` and touches
nothing else. -/
theorem hcombStoreLoop_getD_left (layers : List (List Char)) (n : Nat) :
    ∀ (k : Nat) (cols : List (Option (List Char))) (p : Nat),
      2 * n < cols.length → k ≤ n →
      (hcombStoreLoop layers n false cols k).getD p none =
        if n - k ≤ p ∧ p < n then
          some (hcomb_store_col layers n (n - p - 1))
        else cols.getD p none := by
  intro k
  induction k with
  | zero =>
    intro cols p _ _
    rw [if_neg (by omega)]
    rfl
  | succ m ih =>
    intro cols p hlen hk
    simp only [hcombStoreLoop]
    rw [if_neg (by simp)]
    rw [ih (cols.set (n - m - 1) (some (hcomb_store_col layers n m))) p
      (by rw [List.length_set]; exact hlen) (by omega)]
    by_cases h1 : n - m ≤ p ∧ p < n
    · rw [if_pos h1, if_pos (by omega)]
    · rw [if_neg h1]
      by_cases h2 : p = n - m - 1
      · subst h2
        rw [getD_set_self _ _ _ _ (by omega), if_pos (by omega)]
        have hm : n - (n - m - 1) - 1 = m := by omega
        rw [hm]
      · rw [getD_set_ne _ _ _ (fun hcon => h2 hcon.symm), if_neg (by omega)]

theorem fillRings_center_length (layersN : Nat) :
    ∀ (rem i : Nat) (center s : List Char)
      (lefts rights : List (List Char)),
      (fillRings layersN rem i center s lefts rights).1.length =
        center.length := by
  intro rem
  induction rem with
  | zero => intro i center s lefts rights; rfl
  | succ m ih =>
    intro i center s lefts rights
    simp only [fillRings]
    rw [ih, List.length_set, List.length_set]

/-- Claim C4: for every `layer_count ≥ 1`, after `create_honeycomb` and
`fill_honeycomb` there are `2*layer_count - 1` columns, every column is
present, and column `p` has length
`2*layer_count - 1 - |p - (layer_count - 1)|`; in particular the center
column has the full `2*layer_count - 1` characters.  (The shape depends
only on `layer_count`, not on the input symbols.) -/
theorem honeycomb_shape (L : Nat) (s : List Char) (hL : 1 ≤ L) :
    ((fill_honeycomb (create_honeycomb L) s L).number_columns = 2 * L - 1) ∧
    ((fill_honeycomb (create_honeycomb L) s L).columns.length = 2 * L - 1) ∧
    (∀ p : Nat, p < 2 * L - 1 →
      ((fill_honeycomb (create_honeycomb L) s L).columns.getD p none).isSome
          = true ∧
      ((((fill_honeycomb (create_honeycomb L) s L).columns.getD p none).getD
          []).length : Int) = 2 * L - 1 - |(p : Int) - ((L : Int) - 1)|) := by
  simp only [fill_honeycomb, create_honeycomb]
  by_cases hL2 : 1 < L
  · rw [if_pos hL2]
    refine ⟨rfl, ?_, ?_⟩
    · simp only [hcomb_store]
      rw [List.length_set, hcombStoreLoop_length, hcombStoreLoop_length,
        List.length_replicate]
    · intro p hp
      have hlen1 : (hcomb_store (List.replicate (2 * L - 1) none)
          (fillRings L (L - 1) 1
            ((List.replicate (2 * L - 1) '?').set (L - 1) (s.headD '?'))
            s.tail [] []).2.1 (L - 1) false).length = 2 * L - 1 := by
        simp only [hcomb_store]
        rw [hcombStoreLoop_length, List.length_replicate]
      by_cases hpc : p = L - 1
      · subst hpc
        rw [getD_set_self _ _ _ _ (by
          simp only [hcomb_store]
          rw [hcombStoreLoop_length, hcombStoreLoop_length,
            List.length_replicate]
          omega)]
        refine ⟨rfl, ?_⟩
        simp only [Option.getD_some]
        rw [fillRings_center_length, List.length_set, List.length_replicate]
        have habs : |((L - 1 : Nat) : Int) - ((L : Int) - 1)| = 0 := by
          have hz : ((L - 1 : Nat) : Int) - ((L : Int) - 1) = 0 := by omega
          rw [hz, abs_zero]
        rw [habs]
        omega
      · rw [getD_set_ne _ _ _ (fun hcon => hpc hcon.symm)]
        simp only [hcomb_store]
        rw [hcombStoreLoop_getD_right _ _ _ _ _ (by
            rw [hcombStoreLoop_length, List.length_replicate]; omega)
          (le_refl _)]
        by_cases hpr : L ≤ p
        · rw [if_pos (by omega)]
          refine ⟨rfl, ?_⟩
          simp only [Option.getD_some]
          rw [hcomb_store_col_length]
          have habs : |(p : Int) - ((L : Int) - 1)| = (p : Int) - ((L : Int) - 1) :=
            abs_of_nonneg (by omega)
          rw [habs]
          omega
        · rw [if_neg (by omega)]
          rw [hcombStoreLoop_getD_left _ _ _ _ _ (by
              rw [List.length_replicate]; omega) (le_refl _)]
          rw [if_pos (by omega)]
          refine ⟨rfl, ?_⟩
          simp only [Option.getD_some]
          rw [hcomb_store_col_length]
          have habs : |(p : Int) - ((L : Int) - 1)| =
              -((p : Int) - ((L : Int) - 1)) := abs_of_nonpos (by omega)
          rw [habs]
          omega
  · have hL1 : L = 1 := by omega
    subst hL1
    rw [if_neg hL2]
    refine ⟨rfl, ?_, ?_⟩
    · rw [List.length_set, List.length_replicate]
    · intro p hp
      have hp0 : p = 0 := by omega
      subst hp0
      rw [getD_set_self _ _ _ _ (by rw [List.length_replicate]; omega)]
      refine ⟨rfl, ?_⟩
      simp only [Option.getD_some]
      rw [List.length_set, List.length_replicate]
      decide

/-- Witness for C4 at `layer_count = 2` with a concrete symbol stream. -/
theorem honeycomb_shape_witness :
    (1 ≤ 2) ∧
    (((fill_honeycomb (create_honeycomb 2)
        ['A', 'B', 'C', 'D', 'E', 'F', 'G'] 2).number_columns = 2 * 2 - 1) ∧
     ((fill_honeycomb (create_honeycomb 2)
        ['A', 'B', 'C', 'D', 'E', 'F', 'G'] 2).columns.length = 2 * 2 - 1) ∧
     (∀ p : Nat, p < 2 * 2 - 1 →
       ((fill_honeycomb (create_honeycomb 2)
          ['A', 'B', 'C', 'D', 'E', 'F', 'G'] 2).columns.getD p none).isSome
            = true ∧
       ((((fill_honeycomb (create_honeycomb 2)
          ['A', 'B', 'C', 'D', 'E', 'F', 'G'] 2).columns.getD p none).getD
            []).length : Int) = 2 * 2 - 1 - |(p : Int) - ((2 : Int) - 1)|)) :=
  ⟨by decide,
   honeycomb_shape 2 ['A', 'B', 'C', 'D', 'E', 'F', 'G'] (by decide)⟩

/-! ## Ring reading order (claim C5) -/

theorem drop_set_cons {α : Type} :
    ∀ (l : List α) (k : Nat) (a : α), k < l.length →
      (l.set k a).drop k = a :: l.drop (k + 1) := by
  intro l
  induction l with
  | nil => intro k a h; simp at h
  | cons b r ih =>
    intro k a h
    cases k with
    | zero => rfl
    | succ m =>
      simp only [List.set_cons_succ, List.drop_succ_cons]
      exact ih m a (by simpa using h)

theorem take_set_concat {α : Type} :
    ∀ (l : List α) (k : Nat) (a : α), k < l.length →
      (l.set k a).take (k + 1) = l.take k ++ [a] := by
  intro l
  induction l with
  | nil => intro k a h; simp at h
  | cons b r ih =>
    intro k a h
    cases k with
    | zero => rfl
    | succ m =>
      simp only [List.set_cons_succ, List.take_succ_cons, List.take_cons]
      rw [ih m a (by simpa using h)]
      rfl

theorem drop_set_of_lt {α : Type} :
    ∀ (l : List α) (k m : Nat) (a : α), k < m →
      (l.set k a).drop m = l.drop m := by
  intro l
  induction l with
  | nil => intro k m a _; rfl
  | cons b r ih =>
    intro k m a hkm
    cases k with
    | zero =>
      cases m with
      | zero => omega
      | succ m' => simp [List.drop_succ_cons]
    | succ k' =>
      cases m with
      | zero => omega
      | succ m' =>
        simp only [List.set_cons_succ, List.drop_succ_cons]
        exact ih k' m' a (by omega)

/-- The reversed read loop: starting from counter `k`, it consumes `k`
stream symbols and writes them into buffer slots `k-1, ..., 0`, i.e. the
buffer prefix becomes the reverse of the consumed prefix. -/
theorem readRev_spec :
    ∀ (k : Nat) (buf s : List Char), k ≤ buf.length → k ≤ s.length →
      readRev k buf s = ((s.take k).reverse ++ buf.drop k, s.drop k) := by
  intro k
  induction k with
  | zero => intro buf s _ _; simp [readRev]
  | succ m ih =>
    intro buf s hb hs
    cases s with
    | nil => simp at hs
    | cons a s' =>
      simp only [readRev, List.headD_cons, List.tail_cons]
      rw [ih (buf.set m a) s' (by rw [List.length_set]; omega) (by
        simpa using hs)]
      rw [drop_set_cons buf m a (by omega)]
      simp only [List.take_succ_cons, List.reverse_cons, List.drop_succ_cons]
      rw [List.append_assoc]
      rfl

/-- The forward read loop: with `rem` reads remaining and write index `k`,
it consumes `rem` stream symbols and writes them into buffer slots
`k, ..., k+rem-1` in order. -/
theorem readFwd_spec :
    ∀ (rem k : Nat) (buf s : List Char),
      k + rem ≤ buf.length → rem ≤ s.length →
      readFwd rem k buf s =
        (buf.take k ++ s.take rem ++ buf.drop (k + rem), s.drop rem) := by
  intro rem
  induction rem with
  | zero =>
    intro k buf s _ _
    simp [readFwd, List.take_append_drop]
  | succ m ih =>
    intro k buf s hb hs
    cases s with
    | nil => simp at hs
    | cons a s' =>
      simp only [readFwd, List.headD_cons, List.tail_cons]
      rw [ih (k + 1) (buf.set k a) s' (by rw [List.length_set]; omega) (by
        simpa using hs)]
      rw [take_set_concat buf k a (by omega),
        drop_set_of_lt buf k (k + 1 + m) a (by omega)]
      simp only [List.take_succ_cons, List.drop_succ_cons]
      have harr : k + 1 + m = k + (m + 1) := by omega
      rw [harr, List.append_assoc]
      simp

/-- Claim C5: ring `i` (`1`-indexed) consumes, in order, one upper-center
symbol, `2 + (i-1)*3` right half-ring symbols (stored in reverse of the
order read), one lower-center symbol, and `2 + (i-1)*3` left half-ring
symbols (stored in the order read); exactly `2*(2+(i-1)*3) + 2` symbols
in total are consumed. -/
theorem readRing_spec (i : Nat) (s : List Char) (hi : 1 ≤ i)
    (hs : 2 * (2 + (i - 1) * 3) + 2 ≤ s.length) :
    readRing i s =
      (s.headD '?',
       ((s.drop 1).take (2 + (i - 1) * 3)).reverse,
       (s.drop (1 + (2 + (i - 1) * 3))).headD '?',
       (s.drop (2 + (2 + (i - 1) * 3))).take (2 + (i - 1) * 3),
       s.drop (2 * (2 + (i - 1) * 3) + 2)) := by
  simp only [readRing]
  rw [readRev_spec (2 + (i - 1) * 3) _ s.tail (by rw [List.length_replicate])
    (by rw [List.length_tail]; omega)]
  rw [readFwd_spec (2 + (i - 1) * 3) 0 _ _
    (by rw [List.length_replicate]; omega)
    (by simp only [List.length_tail, List.length_drop]; omega)]
  simp only [Nat.sub_self, Nat.zero_add, List.replicate_zero, List.append_nil,
    List.take_zero, List.nil_append, ← List.drop_one, List.drop_drop,
    List.drop_replicate]
  have e2 : 1 + (2 + (i - 1) * 3) + 1 = 2 + (2 + (i - 1) * 3) := by omega
  rw [e2]
  have e3 : 2 + (2 + (i - 1) * 3) + (2 + (i - 1) * 3) =
      2 * (2 + (i - 1) * 3) + 2 := by omega
  rw [e3]

/-- Witness for C5 at ring `i = 1` (half-ring length 2) on a concrete
stream. -/
theorem readRing_spec_witness :
    (1 ≤ 1) ∧ (2 * (2 + (1 - 1) * 3) + 2 ≤
      (['A', 'B', 'C', 'D', 'E', 'F', 'G'] : List Char).length) ∧
    readRing 1 ['A', 'B', 'C', 'D', 'E', 'F', 'G'] =
      ('A',
       ((['A', 'B', 'C', 'D', 'E', 'F', 'G'].drop 1).take
         (2 + (1 - 1) * 3)).reverse,
       (['A', 'B', 'C', 'D', 'E', 'F', 'G'].drop
         (1 + (2 + (1 - 1) * 3))).headD '?',
       (['A', 'B', 'C', 'D', 'E', 'F', 'G'].drop
         (2 + (2 + (1 - 1) * 3))).take (2 + (1 - 1) * 3),
       ['A', 'B', 'C', 'D', 'E', 'F', 'G'].drop
         (2 * (2 + (1 - 1) * 3) + 2)) :=
  ⟨by decide, by decide,
   readRing_spec 1 ['A', 'B', 'C', 'D', 'E', 'F', 'G'] (by decide)
     (by decide)⟩

/-! ## Ghost instrumentation agrees with the real search (claim C2,
projection half) -/

/-- Projecting the ghost path away from `find_words_trieG` gives exactly
`find_words_trie`. -/
theorem find_words_trieG_proj :
    ∀ (F : Nat) (g : Grid) (t : Trie)
      (gs : List (List Char × List (Int × Int))) (w : List Char)
      (p : List (Int × Int)) (c l : Int),
      find_words_trie F g t (gs.map Prod.fst) w c l =
        ((find_words_trieG F g t gs w p c l).1,
         (find_words_trieG F g t gs w p c l).2.1,
         (find_words_trieG F g t gs w p c l).2.2.1.map Prod.fst,
         (find_words_trieG F g t gs w p c l).2.2.2.1) := by
  intro F
  induction F with
  | zero => intro g t gs w p c l; rfl
  | succ fuel ih =>
    intro g t gs w p c l
    simp only [find_words_trie, find_words_trieG]
    by_cases hc : invalidPos g c l = true ∧ w ≠ []
    · simp only [if_pos hc]
    · simp only [if_neg hc]
      cases ht : t.next (CHAR_TO_INDEX (gridGet g c l)) with
      | none => simp only [ht]
      | some nn =>
        simp only [ht]
        have hstep : ∀ (stP : Grid × Trie × List (List Char) × List Char)
            (stG : Grid × Trie × List (List Char × List (Int × Int)) ×
              List Char × List (Int × Int)) (d : Int × Int),
            d ∈ neighborOffsets →
            stP = (stG.1, stG.2.1, stG.2.2.1.map Prod.fst, stG.2.2.2.1) →
            (if c + d.1 = c ∧ l + d.2 = l then stP
             else find_words_trie fuel stP.1 stP.2.1 stP.2.2.1 stP.2.2.2
               (c + d.1) (l + d.2)) =
            ((if c + d.1 = c ∧ l + d.2 = l then stG
              else find_words_trieG fuel stG.1 stG.2.1 stG.2.2.1 stG.2.2.2.1
                stG.2.2.2.2 (c + d.1) (l + d.2)).1,
             (if c + d.1 = c ∧ l + d.2 = l then stG
              else find_words_trieG fuel stG.1 stG.2.1 stG.2.2.1 stG.2.2.2.1
                stG.2.2.2.2 (c + d.1) (l + d.2)).2.1,
             (if c + d.1 = c ∧ l + d.2 = l then stG
              else find_words_trieG fuel stG.1 stG.2.1 stG.2.2.1 stG.2.2.2.1
                stG.2.2.2.2 (c + d.1) (l + d.2)).2.2.1.map Prod.fst,
             (if c + d.1 = c ∧ l + d.2 = l then stG
              else find_words_trieG fuel stG.1 stG.2.1 stG.2.2.1 stG.2.2.2.1
                stG.2.2.2.2 (c + d.1) (l + d.2)).2.2.2.1) := by
          intro stP stG d _ hR
          by_cases hd : c + d.1 = c ∧ l + d.2 = l
          · simp only [if_pos hd]; exact hR
          · simp only [if_neg hd]
            subst hR
            exact ih stG.1 stG.2.1 stG.2.2.1 stG.2.2.2.1 stG.2.2.2.2
              (c + d.1) (l + d.2)
        by_cases hend : nn.is_end = true
        · simp only [if_pos hend]
          have hfold := foldl_pair
            (fun (stP : Grid × Trie × List (List Char) × List Char)
                 (stG : Grid × Trie × List (List Char × List (Int × Int)) ×
                   List Char × List (Int × Int)) =>
              stP = (stG.1, stG.2.1, stG.2.2.1.map Prod.fst, stG.2.2.2.1))
            (fun (st : Grid × Trie × List (List Char) × List Char)
                (d : Int × Int) =>
              if c + d.1 = c ∧ l + d.2 = l then st
              else find_words_trie fuel st.1 st.2.1 st.2.2.1 st.2.2.2
                (c + d.1) (l + d.2))
            (fun (st : Grid × Trie × List (List Char × List (Int × Int)) ×
                List Char × List (Int × Int)) (d : Int × Int) =>
              if c + d.1 = c ∧ l + d.2 = l then st
              else find_words_trieG fuel st.1 st.2.1 st.2.2.1 st.2.2.2.1
                st.2.2.2.2 (c + d.1) (l + d.2))
            neighborOffsets hstep
            (gridSet g c l '-', Trie.node false nn.next,
              gs.map Prod.fst ++ [w ++ [gridGet g c l]],
              w ++ [gridGet g c l])
            (gridSet g c l '-', Trie.node false nn.next,
              gs ++ [(w ++ [gridGet g c l], p ++ [(c, l)])],
              w ++ [gridGet g c l], p ++ [(c, l)])
            (by simp)
          rw [hfold]
        · simp only [if_neg hend]
          have hfold := foldl_pair
            (fun (stP : Grid × Trie × List (List Char) × List Char)
                 (stG : Grid × Trie × List (List Char × List (Int × Int)) ×
                   List Char × List (Int × Int)) =>
              stP = (stG.1, stG.2.1, stG.2.2.1.map Prod.fst, stG.2.2.2.1))
            (fun (st : Grid × Trie × List (List Char) × List Char)
                (d : Int × Int) =>
              if c + d.1 = c ∧ l + d.2 = l then st
              else find_words_trie fuel st.1 st.2.1 st.2.2.1 st.2.2.2
                (c + d.1) (l + d.2))
            (fun (st : Grid × Trie × List (List Char × List (Int × Int)) ×
                List Char × List (Int × Int)) (d : Int × Int) =>
              if c + d.1 = c ∧ l + d.2 = l then st
              else find_words_trieG fuel st.1 st.2.1 st.2.2.1 st.2.2.2.1
                st.2.2.2.2 (c + d.1) (l + d.2))
            neighborOffsets hstep
            (gridSet g c l '-', nn, gs.map Prod.fst, w ++ [gridGet g c l])
            (gridSet g c l '-', nn, gs, w ++ [gridGet g c l], p ++ [(c, l)])
            rfl
          rw [hfold]

/-- Projection agreement for the inner loop. -/
theorem find_words_innerG_proj (F i : Nat) :
    ∀ (k : Nat) (g : Grid) (t : Trie)
      (gs : List (List Char × List (Int × Int))) (j : Nat),
      find_words_inner F i k g t (gs.map Prod.fst) j =
        ((find_words_innerG F i k g t gs j).1,
         (find_words_innerG F i k g t gs j).2.1,
         (find_words_innerG F i k g t gs j).2.2.map Prod.fst) := by
  intro k
  induction k with
  | zero => intro g t gs j; rfl
  | succ m ih =>
    intro g t gs j
    simp only [find_words_inner, find_words_innerG]
    split
    · rw [find_words_trieG_proj F g t gs [] [] (i : Int) (j : Int)]
      exact ih _ _ _ _
    · rfl

/-- Projection agreement for the outer loop. -/
theorem find_words_outerG_proj (F : Nat) :
    ∀ (rem i : Nat) (g : Grid) (t : Trie)
      (gs : List (List Char × List (Int × Int))),
      find_words_outer F rem i g t (gs.map Prod.fst) =
        ((find_words_outerG F rem i g t gs).1,
         (find_words_outerG F rem i g t gs).2.1,
         (find_words_outerG F rem i g t gs).2.2.map Prod.fst) := by
  intro rem
  induction rem with
  | zero => intro i g t gs; rfl
  | succ m ih =>
    intro i g t gs
    simp only [find_words_outer, find_words_outerG]
    rw [find_words_innerG_proj F i _ g t gs 0]
    exact ih _ _ _ _

/-- Projection agreement for `find_words` run from an empty store: the
real store is the ghost store with the paths projected away. -/
theorem find_wordsG_proj (g : Grid) (t : Trie) :
    find_words g t [] =
      ((find_wordsG g t []).1, (find_wordsG g t []).2.1,
       (find_wordsG g t []).2.2.map Prod.fst) := by
  unfold find_words find_wordsG
  exact find_words_outerG_proj _ _ _ g t []

/-! ## Path invariants of the instrumented search (claim C2, invariant
half) -/

theorem WTrie_next {t : Trie} (hw : WTrie t) {i : Int} {nn : Trie}
    (h : t.next i = some nn) : (0 ≤ i ∧ i < 26) ∧ WTrie nn := by
  cases hw with
  | mk e ch hrange hsub => exact ⟨hrange i nn h, hsub i nn h⟩

theorem WTrie_clear {nn : Trie} (hw : WTrie nn) :
    WTrie (Trie.node false nn.next) := by
  cases hw with
  | mk e ch hrange hsub => exact WTrie.mk false ch hrange hsub

theorem WTrie_setNext {t : Trie} (hw : WTrie t) {i : Int} {nn : Trie}
    (hi : 0 ≤ i ∧ i < 26) (hnn : WTrie nn) :
    WTrie (Trie.node t.is_end (updNext t.next i (some nn))) := by
  cases hw with
  | mk e ch hrange hsub =>
    refine WTrie.mk _ _ ?_ ?_
    · intro j t' hj
      unfold updNext at hj
      by_cases hji : j = i
      · subst hji; exact hi
      · rw [if_neg hji] at hj
        exact hrange j t' hj
    · intro j t' hj
      unfold updNext at hj
      by_cases hji : j = i
      · rw [if_pos hji] at hj
        cases hj
        exact hnn
      · rw [if_neg hji] at hj
        exact hsub j t' hj

/-- Marking a cell with the sentinel preserves sentinel-ness of every
cell that was already marked. -/
theorem gridGet_mark {g : Grid} {c l cq lq : Int}
    (h : gridGet g cq lq = '-') :
    gridGet (gridSet g c l '-') cq lq = '-' := by
  unfold gridGet gridSet at *
  by_cases hcl : 0 ≤ c ∧ 0 ≤ l
  · simp only [if_pos hcl] at h ⊢
    by_cases hq : 0 ≤ cq ∧ 0 ≤ lq
    · simp only [if_pos hq] at h ⊢
      by_cases hcc : c.toNat = cq.toNat
      · rw [← hcc] at h ⊢
        by_cases hcb : c.toNat < g.length
        · rw [getD_set_self _ _ _ _ hcb]
          by_cases hll : l.toNat = lq.toNat
          · rw [← hll] at h ⊢
            by_cases hlb : l.toNat < (g.getD c.toNat []).length
            · rw [getD_set_self _ _ _ _ hlb]
            · rw [List.set_eq_of_length_le (Nat.le_of_not_lt hlb)]
              exact h
          · rw [getD_set_ne _ _ _ hll]
            exact h
        · rw [List.set_eq_of_length_le (Nat.le_of_not_lt hcb)]
          exact h
      · rw [getD_set_ne _ _ _ hcc]
        exact h
    · simp only [if_neg hq] at h ⊢
      exact h
  · simp only [if_neg hcl]
    exact h

/-- Writing a cell whose current character is a real one (not the
out-of-bounds default `'?'`) lands in bounds, so reading it back yields
the written character. -/
theorem gridGet_gridSet_self {g : Grid} {c l : Int} (x : Char)
    (h : gridGet g c l ≠ '?') :
    gridGet (gridSet g c l x) c l = x := by
  unfold gridGet gridSet at *
  by_cases hcl : 0 ≤ c ∧ 0 ≤ l
  · simp only [if_pos hcl] at h ⊢
    by_cases hcb : c.toNat < g.length
    · rw [getD_set_self _ _ _ _ hcb]
      by_cases hlb : l.toNat < (g.getD c.toNat []).length
      · rw [getD_set_self _ _ _ _ hlb]
      · exact absurd (List.getD_eq_default _ _ (Nat.le_of_not_lt hlb)) h
    · have hnil : g.getD c.toNat [] = [] :=
        List.getD_eq_default _ _ (Nat.le_of_not_lt hcb)
      rw [hnil] at h
      exact absurd rfl h
  · simp only [if_neg hcl] at h
    exact absurd rfl h

theorem chainB_concat {f : (Int × Int) → (Int × Int) → Bool} :
    ∀ {p : List (Int × Int)} {x : Int × Int},
      chainB f p = true →
      (∀ q, p.getLast? = some q → f q x = true) →
      chainB f (p ++ [x]) = true := by
  intro p
  induction p with
  | nil => intro x _ _; rfl
  | cons a r ih =>
    intro x hch hlast
    cases r with
    | nil =>
      simp only [List.nil_append, List.cons_append, chainB]
      rw [hlast a rfl]
      rfl
    | cons b r' =>
      simp only [List.cons_append, chainB, Bool.and_eq_true] at hch ⊢
      refine ⟨hch.1, ?_⟩
      exact ih hch.2 (fun q hq => hlast q (by
        rw [List.getLast?_cons_cons]
        exact hq))

/-- The eight neighbor offsets move by at most one column and one
offset. -/
theorem neighborOffsets_small :
    ∀ d ∈ neighborOffsets, d.1.natAbs ≤ 1 ∧ d.2.natAbs ≤ 1 := by decide

/-- Every ghost path recorded by the instrumented search visits no grid
cell twice and moves only between hex-adjacent cells; the search also
restores grid, word buffer and ghost path, and keeps the trie
well-formed. -/
theorem find_words_trieG_paths :
    ∀ (F : Nat) (g : Grid) (t : Trie)
      (gs : List (List Char × List (Int × Int))) (w : List Char)
      (p : List (Int × Int)) (c l : Int),
      WTrie t →
      (∀ q ∈ p, gridGet g q.1 q.2 = '-') →
      p.Nodup →
      chainB adjacentCell p = true →
      (∀ q : Int × Int, p.getLast? = some q →
        adjacentCell q (c, l) = true) →
      ((find_words_trieG F g t gs w p c l).1 = g ∧
       (find_words_trieG F g t gs w p c l).2.2.2.1 = w ∧
       (find_words_trieG F g t gs w p c l).2.2.2.2 = p ∧
       WTrie (find_words_trieG F g t gs w p c l).2.1 ∧
       (∀ e ∈ (find_words_trieG F g t gs w p c l).2.2.1,
         e ∈ gs ∨ (e.2.Nodup ∧ chainB adjacentCell e.2 = true))) := by
  intro F
  induction F with
  | zero =>
    intro g t gs w p c l hw _ _ _ _
    exact ⟨rfl, rfl, rfl, hw, fun e he => Or.inl he⟩
  | succ fuel ih =>
    intro g t gs w p c l hw hP1 hND hCH hP5
    simp only [find_words_trieG]
    split
    · exact ⟨rfl, rfl, rfl, hw, fun e he => Or.inl he⟩
    · split
      · exact ⟨rfl, List.dropLast_concat .., List.dropLast_concat .., hw,
          fun e he => Or.inl he⟩
      · rename_i nn heq
        have hidx := WTrie_next hw heq
        have hch_sent : gridGet g c l ≠ '-' := by
          intro hcon
          have h0 := hidx.1.1
          rw [hcon] at h0
          exact absurd h0 (by decide)
        have hch_q : gridGet g c l ≠ '?' := by
          intro hcon
          have h0 := hidx.1.1
          rw [hcon] at h0
          exact absurd h0 (by decide)
        have hnotmem : (c, l) ∉ p := fun hmem => hch_sent (hP1 (c, l) hmem)
        have hND1 : (p ++ [(c, l)]).Nodup := by
          rw [List.nodup_append]
          refine ⟨hND, List.nodup_singleton _, ?_⟩
          intro a ha hb
          rw [List.mem_singleton] at hb
          subst hb
          exact hnotmem ha
        have hCH1 : chainB adjacentCell (p ++ [(c, l)]) = true :=
          chainB_concat hCH hP5
        have hP1' : ∀ q ∈ p ++ [(c, l)],
            gridGet (gridSet g c l '-') q.1 q.2 = '-' := by
          intro q hq
          rcases List.mem_append.mp hq with hqp | hqc
          · exact gridGet_mark (hP1 q hqp)
          · rw [List.mem_singleton] at hqc
            subst hqc
            exact gridGet_gridSet_self '-' hch_q
        have hP5' : ∀ (d : Int × Int), d ∈ neighborOffsets →
            ¬(c + d.1 = c ∧ l + d.2 = l) →
            ∀ q : Int × Int, (p ++ [(c, l)]).getLast? = some q →
            adjacentCell q (c + d.1, l + d.2) = true := by
          intro d hd hskip q hq
          rw [List.getLast?_concat] at hq
          cases hq
          simp only [adjacentCell, Bool.and_eq_true, decide_eq_true_eq]
          refine ⟨⟨?_, ?_⟩, ?_⟩
          · rw [add_sub_cancel_left]
            exact (neighborOffsets_small d hd).1
          · rw [add_sub_cancel_left]
            exact (neighborOffsets_small d hd).2
          · intro hcon
            have hcon' := (Prod.mk.injEq ..).mp hcon
            exact hskip ⟨hcon'.1.symm, hcon'.2.symm⟩
        have hstep : ∀ (st : Grid × Trie ×
              List (List Char × List (Int × Int)) × List Char ×
              List (Int × Int)) (d : Int × Int), d ∈ neighborOffsets →
            (st.1 = gridSet g c l '-' ∧
             st.2.2.2.1 = w ++ [gridGet g c l] ∧
             st.2.2.2.2 = p ++ [(c, l)] ∧
             WTrie st.2.1 ∧
             (∀ e ∈ st.2.2.1, e ∈ gs ∨
               (e.2.Nodup ∧ chainB adjacentCell e.2 = true))) →
            (((if c + d.1 = c ∧ l + d.2 = l then st
               else find_words_trieG fuel st.1 st.2.1 st.2.2.1 st.2.2.2.1
                 st.2.2.2.2 (c + d.1) (l + d.2))).1 = gridSet g c l '-' ∧
             ((if c + d.1 = c ∧ l + d.2 = l then st
               else find_words_trieG fuel st.1 st.2.1 st.2.2.1 st.2.2.2.1
                 st.2.2.2.2 (c + d.1) (l + d.2))).2.2.2.1 =
               w ++ [gridGet g c l] ∧
             ((if c + d.1 = c ∧ l + d.2 = l then st
               else find_words_trieG fuel st.1 st.2.1 st.2.2.1 st.2.2.2.1
                 st.2.2.2.2 (c + d.1) (l + d.2))).2.2.2.2 = p ++ [(c, l)] ∧
             WTrie ((if c + d.1 = c ∧ l + d.2 = l then st
               else find_words_trieG fuel st.1 st.2.1 st.2.2.1 st.2.2.2.1
                 st.2.2.2.2 (c + d.1) (l + d.2))).2.1 ∧
             (∀ e ∈ ((if c + d.1 = c ∧ l + d.2 = l then st
               else find_words_trieG fuel st.1 st.2.1 st.2.2.1 st.2.2.2.1
                 st.2.2.2.2 (c + d.1) (l + d.2))).2.2.1, e ∈ gs ∨
               (e.2.Nodup ∧ chainB adjacentCell e.2 = true))) := by
          intro st d hd hP
          obtain ⟨h1, h2, h3, h4, h5⟩ := hP
          by_cases hskip : c + d.1 = c ∧ l + d.2 = l
          · simp only [if_pos hskip]
            exact ⟨h1, h2, h3, h4, h5⟩
          · simp only [if_neg hskip]
            have hcall := ih st.1 st.2.1 st.2.2.1 st.2.2.2.1 st.2.2.2.2
              (c + d.1) (l + d.2) h4
              (by rw [h1, h3]; exact hP1')
              (by rw [h3]; exact hND1)
              (by rw [h3]; exact hCH1)
              (by rw [h3]; exact hP5' d hd hskip)
            refine ⟨hcall.1.trans h1, hcall.2.1.trans h2,
              hcall.2.2.1.trans h3, hcall.2.2.2.1, ?_⟩
            intro e he
            rcases hcall.2.2.2.2 e he with hin | hgood
            · exact h5 e hin
            · exact Or.inr hgood
        by_cases hend : nn.is_end = true
        · simp only [if_pos hend]
          have hfold := foldl_inv
            (fun (st : Grid × Trie ×
                List (List Char × List (Int × Int)) × List Char ×
                List (Int × Int)) =>
              st.1 = gridSet g c l '-' ∧
              st.2.2.2.1 = w ++ [gridGet g c l] ∧
              st.2.2.2.2 = p ++ [(c, l)] ∧
              WTrie st.2.1 ∧
              (∀ e ∈ st.2.2.1, e ∈ gs ∨
                (e.2.Nodup ∧ chainB adjacentCell e.2 = true)))
            (fun (st : Grid × Trie ×
                List (List Char × List (Int × Int)) × List Char ×
                List (Int × Int)) (d : Int × Int) =>
              if c + d.1 = c ∧ l + d.2 = l then st
              else find_words_trieG fuel st.1 st.2.1 st.2.2.1 st.2.2.2.1
                st.2.2.2.2 (c + d.1) (l + d.2))
            neighborOffsets hstep
            (gridSet g c l '-', Trie.node false nn.next,
              gs ++ [(w ++ [gridGet g c l], p ++ [(c, l)])],
              w ++ [gridGet g c l], p ++ [(c, l)])
            ⟨rfl, rfl, rfl, WTrie_clear hidx.2, by
              intro e he
              rcases List.mem_append.mp he with hin | hnew
              · exact Or.inl hin
              · rw [List.mem_singleton] at hnew
                subst hnew
                exact Or.inr ⟨hND1, hCH1⟩⟩
          exact ⟨(congrArg (fun z => gridSet z c l (gridGet g c l))
              hfold.1).trans
              (by rw [gridSet_gridSet, gridSet_gridGet_self]),
            (congrArg List.dropLast hfold.2.1).trans (List.dropLast_concat ..),
            (congrArg List.dropLast hfold.2.2.1).trans
              (List.dropLast_concat ..),
            WTrie_setNext hw hidx.1 hfold.2.2.2.1,
            hfold.2.2.2.2⟩
        · simp only [if_neg hend]
          have hfold := foldl_inv
            (fun (st : Grid × Trie ×
                List (List Char × List (Int × Int)) × List Char ×
                List (Int × Int)) =>
              st.1 = gridSet g c l '-' ∧
              st.2.2.2.1 = w ++ [gridGet g c l] ∧
              st.2.2.2.2 = p ++ [(c, l)] ∧
              WTrie st.2.1 ∧
              (∀ e ∈ st.2.2.1, e ∈ gs ∨
                (e.2.Nodup ∧ chainB adjacentCell e.2 = true)))
            (fun (st : Grid × Trie ×
                List (List Char × List (Int × Int)) × List Char ×
                List (Int × Int)) (d : Int × Int) =>
              if c + d.1 = c ∧ l + d.2 = l then st
              else find_words_trieG fuel st.1 st.2.1 st.2.2.1 st.2.2.2.1
                st.2.2.2.2 (c + d.1) (l + d.2))
            neighborOffsets hstep
            (gridSet g c l '-', nn, gs, w ++ [gridGet g c l], p ++ [(c, l)])
            ⟨rfl, rfl, rfl, hidx.2, fun e he => Or.inl he⟩
          exact ⟨(congrArg (fun z => gridSet z c l (gridGet g c l))
              hfold.1).trans
              (by rw [gridSet_gridSet, gridSet_gridGet_self]),
            (congrArg List.dropLast hfold.2.1).trans (List.dropLast_concat ..),
            (congrArg List.dropLast hfold.2.2.1).trans
              (List.dropLast_concat ..),
            WTrie_setNext hw hidx.1 hfold.2.2.2.1,
            hfold.2.2.2.2⟩

/-- Path invariants through the instrumented inner loop. -/
theorem find_words_innerG_paths (F i : Nat) :
    ∀ (k : Nat) (g : Grid) (t : Trie)
      (gs : List (List Char × List (Int × Int))) (j : Nat),
      WTrie t →
      ((find_words_innerG F i k g t gs j).1 = g ∧
       WTrie (find_words_innerG F i k g t gs j).2.1 ∧
       (∀ e ∈ (find_words_innerG F i k g t gs j).2.2, e ∈ gs ∨
         (e.2.Nodup ∧ chainB adjacentCell e.2 = true))) := by
  intro k
  induction k with
  | zero => intro g t gs j hw; exact ⟨rfl, hw, fun e he => Or.inl he⟩
  | succ m ih =>
    intro g t gs j hw
    simp only [find_words_innerG]
    split
    · have hcall := find_words_trieG_paths F g t gs [] [] (i : Int) (j : Int)
        hw (by intro q hq; simp at hq) List.nodup_nil rfl
        (by intro q hq; simp at hq)
      have hrec := ih (find_words_trieG F g t gs [] [] (i : Int) (j : Int)).1
        (find_words_trieG F g t gs [] [] (i : Int) (j : Int)).2.1
        (find_words_trieG F g t gs [] [] (i : Int) (j : Int)).2.2.1 (j + 1)
        hcall.2.2.2.1
      refine ⟨hrec.1.trans hcall.1, hrec.2.1, ?_⟩
      intro e he
      rcases hrec.2.2 e he with hin | hgood
      · exact hcall.2.2.2.2 e hin
      · exact Or.inr hgood
    · exact ⟨rfl, hw, fun e he => Or.inl he⟩

/-- Path invariants through the instrumented outer loop. -/
theorem find_words_outerG_paths (F : Nat) :
    ∀ (rem i : Nat) (g : Grid) (t : Trie)
      (gs : List (List Char × List (Int × Int))),
      WTrie t →
      ((find_words_outerG F rem i g t gs).1 = g ∧
       WTrie (find_words_outerG F rem i g t gs).2.1 ∧
       (∀ e ∈ (find_words_outerG F rem i g t gs).2.2, e ∈ gs ∨
         (e.2.Nodup ∧ chainB adjacentCell e.2 = true))) := by
  intro rem
  induction rem with
  | zero => intro i g t gs hw; exact ⟨rfl, hw, fun e he => Or.inl he⟩
  | succ m ih =>
    intro i g t gs hw
    simp only [find_words_outerG]
    have hin := find_words_innerG_paths F i ((g.getD i []).length + 1)
      g t gs 0 hw
    have hrec := ih (i + 1)
      (find_words_innerG F i ((g.getD i []).length + 1) g t gs 0).1
      (find_words_innerG F i ((g.getD i []).length + 1) g t gs 0).2.1
      (find_words_innerG F i ((g.getD i []).length + 1) g t gs 0).2.2
      hin.2.1
    refine ⟨hrec.1.trans hin.1, hrec.2.1, ?_⟩
    intro e he
    rcases hrec.2.2 e he with hin' | hgood
    · exact hin.2.2 e hin'
    · exact Or.inr hgood

/-! ## Program-built tries are well-formed -/

theorem WTrie_get_trienode : WTrie get_trienode :=
  WTrie.mk false (fun _ => none) (fun i t' h => by cases h)
    (fun i t' h => by cases h)

theorem WTrie_insert :
    ∀ (w : List Char) (t : Trie), WTrie t →
      (∀ ch ∈ w, 'A' ≤ ch ∧ ch ≤ 'Z') →
      WTrie (insert_trie t w) := by
  intro w
  induction w with
  | nil =>
    intro t hw _
    cases t with
    | node e ch =>
      cases hw
      rename_i hrange hsub
      exact WTrie.mk true ch hrange hsub
  | cons c rest ih =>
    intro t hw hchars
    cases t with
    | node e ch =>
      have hrangec : 0 ≤ CHAR_TO_INDEX c ∧ CHAR_TO_INDEX c < 26 :=
        (CHAR_TO_INDEX_in_range_iff c).mp
          (hchars c (List.mem_cons_self c rest))
      have hchild : WTrie ((ch (CHAR_TO_INDEX c)).getD get_trienode) := by
        cases hcc : ch (CHAR_TO_INDEX c) with
        | none => exact WTrie_get_trienode
        | some child =>
          exact (WTrie_next hw (show (Trie.node e ch).next (CHAR_TO_INDEX c) =
            some child from hcc)).2
      have hins : WTrie (insert_trie ((ch (CHAR_TO_INDEX c)).getD
          get_trienode) rest) :=
        ih _ hchild (fun a ha => hchars a (List.mem_cons_of_mem c ha))
      have := WTrie_setNext hw hrangec hins
      exact this

theorem WTrie_build_from_dictionary (ws : List (List Char))
    (hws : ∀ w ∈ ws, ∀ ch ∈ w, 'A' ≤ ch ∧ ch ≤ 'Z') :
    WTrie (build_from_dictionary ws) := by
  unfold build_from_dictionary
  have hgen : ∀ (l : List (List Char)) (t : Trie), WTrie t →
      (∀ w ∈ l, ∀ ch ∈ w, 'A' ≤ ch ∧ ch ≤ 'Z') →
      WTrie (l.foldl (fun t w => insert_trie t w) t) := by
    intro l
    induction l with
    | nil => intro t hw _; exact hw
    | cons w l' ihl =>
      intro t hw hl
      rw [List.foldl_cons]
      exact ihl _ (WTrie_insert w t hw (hl w (List.mem_cons_self w l')))
        (fun v hv => hl v (List.mem_cons_of_mem w hv))
  exact hgen ws get_trienode WTrie_get_trienode hws

/-- Claim C2: the result store of a complete `find_words` run is the
ghost store with the paths projected away, and every recorded
word's coordinate sequence (the cells whose characters were appended to
build it) has no repeated coordinate and steps only between cells
differing by at most 1 in column and at most 1 in offset and not
identical. -/
theorem found_words_paths_are_simple_hex_paths (g : Grid) (t : Trie)
    (hw : WTrie t) :
    (find_words g t []).2.2 = (find_wordsG g t []).2.2.map Prod.fst ∧
    (∀ e ∈ (find_wordsG g t []).2.2, e.2.Nodup ∧
      chainB adjacentCell e.2 = true) := by
  constructor
  · have hproj := find_wordsG_proj g t
    rw [hproj]
  · intro e he
    have hpaths := find_words_outerG_paths ((g.map List.length).sum + 1)
      g.length 0 g t [] hw
    rcases hpaths.2.2 e he with hin | hgood
    · simp at hin
    · exact hgood

/-- Witness for C2 on a concrete grid and dictionary-built trie. -/
theorem found_words_paths_witness :
    ((find_words [['A', 'B'], ['A']] (build_from_dictionary [['A', 'B']])
        []).2.2 =
      (find_wordsG [['A', 'B'], ['A']] (build_from_dictionary [['A', 'B']])
        []).2.2.map Prod.fst) ∧
    (∀ e ∈ (find_wordsG [['A', 'B'], ['A']]
        (build_from_dictionary [['A', 'B']]) []).2.2,
      e.2.Nodup ∧ chainB adjacentCell e.2 = true) :=
  found_words_paths_are_simple_hex_paths [['A', 'B'], ['A']]
    (build_from_dictionary [['A', 'B']])
    (WTrie_build_from_dictionary [['A', 'B']] (by decide))

/-! ## The record-and-clear step of claim C1 -/

/-- The store only ever grows across a search call. -/
theorem find_words_trie_store_grows :
    ∀ (F : Nat) (g : Grid) (t : Trie) (s : List (List Char)) (w : List Char)
      (c l : Int),
      ∃ d, (find_words_trie F g t s w c l).2.2.1 = s ++ d := by
  intro F
  induction F with
  | zero => intro g t s w c l; exact ⟨[], by simp [find_words_trie]⟩
  | succ fuel ih =>
    intro g t s w c l
    simp only [find_words_trie]
    split
    · exact ⟨[], by rw [List.append_nil]⟩
    · split
      · exact ⟨[], by rw [List.append_nil]⟩
      · rename_i nn heq
        have key : ∀ init : Grid × Trie × List (List Char) × List Char,
            ∃ d, (neighborOffsets.foldl
              (fun (st : Grid × Trie × List (List Char) × List Char)
                  (d : Int × Int) =>
                if c + d.1 = c ∧ l + d.2 = l then st
                else find_words_trie fuel st.1 st.2.1 st.2.2.1 st.2.2.2
                  (c + d.1) (l + d.2)) init).2.2.1 = init.2.2.1 ++ d := by
          intro init
          refine foldl_chain (fun st st' => ∃ d, st'.2.2.1 = st.2.2.1 ++ d)
            (fun st => ⟨[], by simp⟩) ?_ _ neighborOffsets ?_ init
          · intro A B C hAB hBC
            obtain ⟨d1, h1⟩ := hAB
            obtain ⟨d2, h2⟩ := hBC
            exact ⟨d1 ++ d2, by rw [h2, h1, List.append_assoc]⟩
          · intro st d _
            by_cases hd : c + d.1 = c ∧ l + d.2 = l
            · rw [if_pos hd]; exact ⟨[], by simp⟩
            · rw [if_neg hd]
              exact ih st.1 st.2.1 st.2.2.1 st.2.2.2 _ _
        by_cases hend : nn.is_end = true
        · simp only [if_pos hend]
          obtain ⟨d, hd⟩ := key (gridSet g c l '-', Trie.node false nn.next,
            s ++ [w ++ [gridGet g c l]], w ++ [gridGet g c l])
          exact ⟨[w ++ [gridGet g c l]] ++ d, hd.trans (by simp)⟩
        · simp only [if_neg hend]
          obtain ⟨d, hd⟩ := key (gridSet g c l '-', nn, s,
            w ++ [gridGet g c l])
          exact ⟨d, hd⟩

/-- The record-and-clear step: when the bounds check passes and the trie
child for the current cell's character is terminal, the extended buffer is
appended to the store (everything the neighbor calls add comes after it),
and in the returned trie that child's terminal flag is cleared. -/
theorem find_words_trie_terminal_step
    (F : Nat) (g : Grid) (t : Trie) (s : List (List Char)) (w : List Char)
    (c l : Int) (nn : Trie)
    (hvalid : ¬(invalidPos g c l = true ∧ w ≠ []))
    (heq : t.next (CHAR_TO_INDEX (gridGet g c l)) = some nn)
    (hend : nn.is_end = true) :
    (∃ rest, (find_words_trie (F + 1) g t s w c l).2.2.1 =
      s ++ (w ++ [gridGet g c l]) :: rest) ∧
    (∃ nn' : Trie, (find_words_trie (F + 1) g t s w c l).2.1.next
        (CHAR_TO_INDEX (gridGet g c l)) = some nn' ∧
      nn'.is_end = false) := by
  have hstore : ∃ rest, (find_words_trie (F + 1) g t s w c l).2.2.1 =
      s ++ (w ++ [gridGet g c l]) :: rest := by
    simp only [find_words_trie]
    rw [if_neg hvalid]
    simp only [heq, if_pos hend]
    have key := foldl_chain
      (fun (st st' : Grid × Trie × List (List Char) × List Char) =>
        ∃ d, st'.2.2.1 = st.2.2.1 ++ d)
      (fun st => ⟨[], by simp⟩)
      (fun A B C hAB hBC => by
        obtain ⟨d1, h1⟩ := hAB
        obtain ⟨d2, h2⟩ := hBC
        exact ⟨d1 ++ d2, by rw [h2, h1, List.append_assoc]⟩)
      (fun (st : Grid × Trie × List (List Char) × List Char)
          (d : Int × Int) =>
        if c + d.1 = c ∧ l + d.2 = l then st
        else find_words_trie F st.1 st.2.1 st.2.2.1 st.2.2.2
          (c + d.1) (l + d.2))
      neighborOffsets
      (fun st d _ => by
        simp only []
        by_cases hd : c + d.1 = c ∧ l + d.2 = l
        · rw [if_pos hd]; exact ⟨[], by simp⟩
        · rw [if_neg hd]
          exact find_words_trie_store_grows F st.1 st.2.1 st.2.2.1
            st.2.2.2 _ _)
      (gridSet g c l '-', Trie.node false nn.next,
        s ++ [w ++ [gridGet g c l]], w ++ [gridGet g c l])
    obtain ⟨d, hd⟩ := key
    exact ⟨d, hd.trans (by simp)⟩
  refine ⟨hstore, ?_⟩
  have hex : ∃ nn', (find_words_trie (F + 1) g t s w c l).2.1.next
      (CHAR_TO_INDEX (gridGet g c l)) = some nn' := by
    simp only [find_words_trie]
    rw [if_neg hvalid]
    simp only [heq, if_pos hend]
    exact ⟨_, updNext_self _ _ _⟩
  obtain ⟨nn', hnn'⟩ := hex
  refine ⟨nn', hnn', ?_⟩
  have hcount := (find_words_trie_count_mono (F + 1) g t s w c l).1
    [gridGet g c l]
  have haccT : trie_accepts t [gridGet g c l] = true := by
    rw [trie_accepts_cons_some [] heq, trie_accepts_nil]
    exact hend
  rw [haccT] at hcount
  obtain ⟨rest, hrest⟩ := hstore
  rw [hrest] at hcount
  rw [trie_accepts_cons_some [] hnn', trie_accepts_nil] at hcount
  have hcnt : List.count (w ++ [gridGet g c l])
      (s ++ (w ++ [gridGet g c l]) :: rest) ≥
      List.count (w ++ [gridGet g c l]) s + 1 := by
    rw [List.count_append, List.count_cons]
    simp
  cases hb : nn'.is_end with
  | false => rfl
  | true =>
    rw [hb] at hcount
    simp only [Bool.toNat_true] at hcount
    omega

/-- Claim C1: during a search step, if the trie child reached for the
current cell's character has its terminal flag set, the current word
buffer (extended with that character) is appended to the result store and
that child's terminal flag is cleared in the returned trie; consequently,
across one complete `find_words` run (which starts from an empty store,
as in `main`), each distinct word string is recorded at most once — no
re-recording of the same word via a different grid path or starting
cell. -/
theorem find_words_records_each_word_at_most_once :
    (∀ (F : Nat) (g : Grid) (t : Trie) (s : List (List Char))
       (w : List Char) (c l : Int) (nn : Trie),
       ¬(invalidPos g c l = true ∧ w ≠ []) →
       t.next (CHAR_TO_INDEX (gridGet g c l)) = some nn →
       nn.is_end = true →
       (∃ rest, (find_words_trie (F + 1) g t s w c l).2.2.1 =
         s ++ (w ++ [gridGet g c l]) :: rest) ∧
       (∃ nn' : Trie, (find_words_trie (F + 1) g t s w c l).2.1.next
           (CHAR_TO_INDEX (gridGet g c l)) = some nn' ∧
         nn'.is_end = false)) ∧
    (∀ (g : Grid) (t : Trie) (x : List Char),
       List.count x (find_words g t []).2.2 ≤ 1) :=
  ⟨fun F g t s w c l nn hvalid heq hend =>
     find_words_trie_terminal_step F g t s w c l nn hvalid heq hend,
   find_words_count_le_one⟩

/-- Witness for C1's record-and-clear step at a concrete configuration:
a one-cell grid holding `'A'` and the trie of the dictionary `["A"]`. -/
theorem find_words_records_witness :
    (¬(invalidPos [['A']] 0 0 = true ∧ ([] : List Char) ≠ []) ∧
     (build_from_dictionary [['A']]).next
        (CHAR_TO_INDEX (gridGet [['A']] 0 0)) =
       some (Trie.node true (fun _ => none)) ∧
     (Trie.node true (fun _ => none)).is_end = true) ∧
    ((∃ rest, (find_words_trie 1 [['A']] (build_from_dictionary [['A']]) []
        [] 0 0).2.2.1 = [] ++ ([] ++ [gridGet [['A']] 0 0]) :: rest) ∧
     (∃ nn' : Trie, (find_words_trie 1 [['A']]
          (build_from_dictionary [['A']]) [] [] 0 0).2.1.next
         (CHAR_TO_INDEX (gridGet [['A']] 0 0)) = some nn' ∧
       nn'.is_end = false)) :=
  ⟨⟨by decide, rfl, rfl⟩,
   find_words_records_each_word_at_most_once.1 0 [['A']]
     (build_from_dictionary [['A']]) [] [] 0 0
     (Trie.node true (fun _ => none)) (by decide) rfl rfl⟩
